import Mathlib

/-!
# Packet fan-out feed (`cmd/send.go`)

Shallow embedding of `SendPktFeed`, its two methods `Send` and
`RegisterSender`, and the Go primitives they use (a `sync.Mutex`, a slice of
channels, the channel send statement).

Two embeddings of the two methods are given and proved to agree
(`lone_thread_agrees`):

* sequential: one call runs alone, as a function from state to `Outcome`; a
  goroutine that parks (on the mutex or on a channel send) stays parked, which
  is an explicit outcome, as is a panic;
* interleaving: several goroutines are inside the methods at once, one
  statement of one thread per step, under an arbitrary schedule.

Channels live in a heap indexed by address, because the slice holds references
and the same channel may be registered more than once.
-/

namespace UdpProxy

/-- Reference to a captured packet. `gopacket.Packet` is an interface value; the
feed never looks inside, it only copies the reference. -/
abbrev Packet := Nat

/-- The source's `type Send struct { packet; srcif }`: what is put on a channel. -/
structure Send where
  packet : Packet
  srcif : String
deriving DecidableEq, Repr

/-- A Go `chan Send` object: buffered values (oldest first), capacity given at
`make`, and whether `close` was called on it. -/
structure Chan where
  buf : List Send
  cap : Nat
  closed : Bool
deriving DecidableEq, Repr

/-- What a channel send statement `c <- v` does when no receiver is waiting. -/
inductive SendStep where
  | ok (c : Chan)
  | block
  | panic
deriving DecidableEq, Repr

/-- Go channel send `c <- v` on a non-nil channel: panics when the channel is
closed (checked first), enqueues when the buffer has room, parks otherwise. -/
def Chan.send (c : Chan) (v : Send) : SendStep :=
  if c.closed then SendStep.panic
  else if c.buf.length < c.cap then SendStep.ok { c with buf := c.buf ++ [v] }
  else SendStep.block

/-- A `sync.Mutex`: only whether it is currently locked. -/
structure Mutex where
  held : Bool
deriving DecidableEq, Repr

/-- `Lock()`: succeeds on a free mutex; on a held one the caller parks (`none`). -/
def Mutex.Lock (m : Mutex) : Option Mutex :=
  if m.held then none else some { held := true }

/-- `Unlock()`: releases a held mutex; on a free one the runtime aborts (`none`). -/
def Mutex.Unlock (m : Mutex) : Option Mutex :=
  if m.held then some { held := false } else none

/-- A value of type `chan Send`: `none` is the nil channel, `some a` the channel
object at address `a`. -/
abbrev ChanRef := Option Nat

/-- The source's `type SendPktFeed struct { lock; senders }`. -/
structure SendPktFeed where
  lock : Mutex
  senders : List ChanRef
deriving DecidableEq, Repr

/-- Program state seen by a call: the feed `s`, the heap of channel objects, and
a history of completed channel sends (address, value), newest last. The history
is ghost state: nothing reads it, it records the order of deliveries. -/
structure Machine where
  s : SendPktFeed
  chans : Nat → Chan
  delivered : List (Nat × Send)

/-- Heap update at one address. -/
def setChan (h : Nat → Chan) (a : Nat) (c : Chan) : Nat → Chan :=
  fun b => if b = a then c else h b

/-- How a call ends when it runs alone. -/
inductive Outcome where
  /-- the method returned -/
  | returned (m : Machine)
  /-- parked in `s.lock.Lock()` -/
  | blockedOnLock (m : Machine)
  /-- parked in the channel send of loop iteration `j` -/
  | blockedOnSend (j : Nat) (m : Machine)
  /-- `panic: send on closed channel` in loop iteration `j` -/
  | panicked (j : Nat) (m : Machine)
  /-- `fatal error: sync: unlock of unlocked mutex` -/
  | fatalUnlock (m : Machine)

/-- The state in which the call ended (or is stuck). -/
def Outcome.state : Outcome → Machine
  | Outcome.returned m => m
  | Outcome.blockedOnLock m => m
  | Outcome.blockedOnSend _ m => m
  | Outcome.panicked _ m => m
  | Outcome.fatalUnlock m => m

/-- The call returned to its caller. -/
def Outcome.isReturned : Outcome → Bool
  | Outcome.returned _ => true
  | _ => false

/-- The call ended in a panic or a fatal runtime error. -/
def Outcome.isFault : Outcome → Bool
  | Outcome.panicked _ _ => true
  | Outcome.fatalUnlock _ => true
  | _ => false

/-- Loop iteration at which the call stopped, when it stopped inside the loop. -/
def Outcome.index : Outcome → Option Nat
  | Outcome.blockedOnSend j _ => some j
  | Outcome.panicked j _ => some j
  | _ => none

/-- The loop `for _, send := range s.senders { send <- v }` from iteration `j` on,
over the remaining elements of the slice. A nil channel parks the sender. -/
def sendLoop (v : Send) : List ChanRef → Nat → Machine → Outcome
  | [], _, m => Outcome.returned m
  | none :: _, j, m => Outcome.blockedOnSend j m
  | some a :: rest, j, m =>
    match (m.chans a).send v with
    | SendStep.ok c =>
      sendLoop v rest (j + 1)
        { m with chans := setChan m.chans a c, delivered := m.delivered ++ [(a, v)] }
    | SendStep.block => Outcome.blockedOnSend j m
    | SendStep.panic => Outcome.panicked j m

/-- The method `func (s *SendPktFeed) Send(p gopacket.Packet, srcif string)`. -/
def SendPktFeed.Send (m : Machine) (p : Packet) (srcif : String) : Outcome :=
  match m.s.lock.Lock with
  | none => Outcome.blockedOnLock m
  | some l =>
    match sendLoop { packet := p, srcif := srcif } m.s.senders 0
        { m with s := { m.s with lock := l } } with
    | Outcome.returned m1 =>
      match m1.s.lock.Unlock with
      | none => Outcome.fatalUnlock m1
      | some l1 => Outcome.returned { m1 with s := { m1.s with lock := l1 } }
    | o => o

/-- The method `func (s *SendPktFeed) RegisterSender(send chan Send)`. -/
def SendPktFeed.RegisterSender (m : Machine) (send : ChanRef) : Outcome :=
  match m.s.lock.Lock with
  | none => Outcome.blockedOnLock m
  | some l =>
    let m1 : Machine := { m with s := { lock := l, senders := m.s.senders ++ [send] } }
    match m1.s.lock.Unlock with
    | none => Outcome.fatalUnlock m1
    | some l1 => Outcome.returned { m1 with s := { m1.s with lock := l1 } }

/-- A call made by the surrounding program. -/
inductive Call where
  | send (p : Packet) (srcif : String)
  | register (send : ChanRef)
deriving DecidableEq, Repr

/-- Run one call. -/
def Call.exec : Call → Machine → Outcome
  | Call.send p srcif, m => SendPktFeed.Send m p srcif
  | Call.register c, m => SendPktFeed.RegisterSender m c

/-- Calls issued one after the other by one goroutine: the next call starts when
the previous one has returned; a call that parks or panics ends the run. -/
def runCalls : List Call → Machine → Outcome
  | [], m => Outcome.returned m
  | c :: cs, m =>
    match c.exec m with
    | Outcome.returned m1 => runCalls cs m1
    | o => o

/-- A channel as returned by `make(chan Send, cap)`. -/
def mkChan (cap : Nat) : Chan := { buf := [], cap := cap, closed := false }

/-- The zero value of `SendPktFeed`: free mutex, nil slice. -/
def SendPktFeed.zero : SendPktFeed := { lock := { held := false }, senders := [] }

/-- A fresh program state: zero feed, every channel empty with capacity `cap`. -/
def Machine.fresh (cap : Nat) : Machine :=
  { s := SendPktFeed.zero, chans := fun _ => mkChan cap, delivered := [] }

/-- State after the channel sends of `v` to the addresses `as`, in that order,
have all completed: closed form of what the loop does on its happy path. -/
def deliver (as : List Nat) (v : Send) (m : Machine) : Machine :=
  { m with
    chans := fun a =>
      { m.chans a with buf := (m.chans a).buf ++ List.replicate (as.count a) v },
    delivered := m.delivered ++ as.map (fun a => (a, v)) }

/-- Every channel of `as` is open and has room for `n` more values per
occurrence in `as`. -/
def Roomy (m : Machine) (as : List Nat) (n : Nat) : Prop :=
  ∀ a ∈ as, (m.chans a).closed = false ∧
    (m.chans a).buf.length + n * as.count a ≤ (m.chans a).cap

/-- The state right after `s.lock.Lock()` succeeded. -/
def acquire (m : Machine) : Machine :=
  { m with s := { m.s with lock := { held := true } } }

/-- The call `Send(v.packet, v.srcif)`, whose envelope `Send{packet, srcif}` is `v`. -/
def Send.call (v : Send) : Call := Call.send v.packet v.srcif

/-- State after every value of `vs` went, one after the other, to all of `as`. -/
def deliverAll (as : List Nat) (vs : List Send) (m : Machine) : Machine :=
  vs.foldl (fun acc v => deliver as v acc) m

/-- The loop cannot get past the head of `rest` once the front `ds` is served:
the slice is exhausted, or the next entry is nil, closed, or full by then. -/
def Stops (m : Machine) (ds : List Nat) : List ChanRef → Prop
  | [] => True
  | none :: _ => True
  | some a :: _ =>
    (m.chans a).closed = true ∨ (m.chans a).cap ≤ (m.chans a).buf.length + ds.count a

/-- Outcome of the loop when it stops at the head of `rest` in state `m`. -/
def stopOutcome (j : Nat) (m : Machine) : List ChanRef → Outcome
  | [] => Outcome.returned m
  | none :: _ => Outcome.blockedOnSend j m
  | some a :: _ =>
    if (m.chans a).closed then Outcome.panicked j m else Outcome.blockedOnSend j m

/-- Outcome of `Send` in terms of the split of the slice. -/
def sendOutcome (m : Machine) (ds : List Nat) (v : Send) : List ChanRef → Outcome
  | [] => Outcome.returned (deliver ds v m)
  | x :: rest => stopOutcome ds.length (deliver ds v (acquire m)) (x :: rest)

/-- State after `RegisterSender` ran for each element of `cs`. -/
def registered (cs : List ChanRef) (m : Machine) : Machine :=
  { m with s := { m.s with senders := m.s.senders ++ cs } }

/-- What no call changes: the old list stays a front of the new one, no channel
is closed or resized, and no buffered value is removed. -/
def Grows (m m1 : Machine) : Prop :=
  m.s.senders <+: m1.s.senders ∧
  ∀ a, (m1.chans a).closed = (m.chans a).closed ∧ (m1.chans a).cap = (m.chans a).cap ∧
    (m.chans a).buf <+: (m1.chans a).buf

/-- How a call ended, without the state. -/
inductive Shape where
  | returned
  | blockedOnLock
  | blockedOnSend (j : Nat)
  | panicked (j : Nat)
  | fatalUnlock
deriving DecidableEq, Repr

/-- The way an outcome ended. -/
def Outcome.shape : Outcome → Shape
  | Outcome.returned _ => Shape.returned
  | Outcome.blockedOnLock _ => Shape.blockedOnLock
  | Outcome.blockedOnSend j _ => Shape.blockedOnSend j
  | Outcome.panicked j _ => Shape.panicked j
  | Outcome.fatalUnlock _ => Shape.fatalUnlock

/-! ## Interleaving model

Several goroutines are inside `Send` or `RegisterSender` at once. Each thread
has a program point; one action runs one statement of one thread atomically.
The assignment `s.senders = append(s.senders, send)` is two steps (read, then
write), so without the lock an entry could be lost. Channel owners act
concurrently as well: they receive from and close their channels. -/

/-- Program points of a running `Send` call. -/
inductive SendPC where
  /-- before `s.lock.Lock()` -/
  | lock
  /-- lock taken, range expression `s.senders` not yet evaluated -/
  | range
  /-- before iteration `j` over the slice `rng` captured by `range` -/
  | loop (rng : List ChanRef) (j : Nat)
  /-- before `s.lock.Unlock()` -/
  | unlock
  /-- returned -/
  | done
  /-- the goroutine panicked (send on closed channel, or unlock of a free mutex) -/
  | panicked
deriving DecidableEq, Repr

/-- Program points of a running `RegisterSender` call. -/
inductive RegPC where
  /-- before `s.lock.Lock()` -/
  | lock
  /-- lock taken, `append(s.senders, send)` not yet evaluated -/
  | append
  /-- `append` returned `tmp`, not yet stored into `s.senders` -/
  | assign (tmp : List ChanRef)
  /-- before `s.lock.Unlock()` -/
  | unlock
  /-- returned -/
  | done
  /-- the goroutine hit a fatal error (unlock of a free mutex) -/
  | panicked
deriving DecidableEq, Repr

/-- A goroutine executing one of the two methods, with its arguments. -/
inductive Thread where
  | send (p : Packet) (srcif : String) (pc : SendPC)
  | register (c : ChanRef) (pc : RegPC)
deriving DecidableEq, Repr

/-- A thread about to start the given call. -/
def Thread.start : Call → Thread
  | Call.send p srcif => Thread.send p srcif SendPC.lock
  | Call.register c => Thread.register c RegPC.lock

/-- One statement of a thread on the shared state; `none` when the thread cannot
move (parked on the mutex or on a channel, or finished). -/
def Thread.step : Thread → Machine → Option (Thread × Machine)
  | Thread.send p srcif SendPC.lock, m =>
    match m.s.lock.Lock with
    | none => none
    | some l => some (Thread.send p srcif SendPC.range, { m with s := { m.s with lock := l } })
  | Thread.send p srcif SendPC.range, m =>
    some (Thread.send p srcif (SendPC.loop m.s.senders 0), m)
  | Thread.send p srcif (SendPC.loop rng j), m =>
    match rng[j]? with
    | none => some (Thread.send p srcif SendPC.unlock, m)
    | some none => none
    | some (some a) =>
      match (m.chans a).send { packet := p, srcif := srcif } with
      | SendStep.ok c =>
        some (Thread.send p srcif (SendPC.loop rng (j + 1)),
          { m with chans := setChan m.chans a c,
                   delivered := m.delivered ++ [(a, { packet := p, srcif := srcif })] })
      | SendStep.block => none
      | SendStep.panic => some (Thread.send p srcif SendPC.panicked, m)
  | Thread.send p srcif SendPC.unlock, m =>
    match m.s.lock.Unlock with
    | none => some (Thread.send p srcif SendPC.panicked, m)
    | some l => some (Thread.send p srcif SendPC.done, { m with s := { m.s with lock := l } })
  | Thread.send _ _ SendPC.done, _ => none
  | Thread.send _ _ SendPC.panicked, _ => none
  | Thread.register c RegPC.lock, m =>
    match m.s.lock.Lock with
    | none => none
    | some l => some (Thread.register c RegPC.append, { m with s := { m.s with lock := l } })
  | Thread.register c RegPC.append, m =>
    some (Thread.register c (RegPC.assign (m.s.senders ++ [c])), m)
  | Thread.register c (RegPC.assign tmp), m =>
    some (Thread.register c RegPC.unlock, { m with s := { m.s with senders := tmp } })
  | Thread.register c RegPC.unlock, m =>
    match m.s.lock.Unlock with
    | none => some (Thread.register c RegPC.panicked, m)
    | some l => some (Thread.register c RegPC.done, { m with s := { m.s with lock := l } })
  | Thread.register _ RegPC.done, _ => none
  | Thread.register _ RegPC.panicked, _ => none

/-- A channel send that completes by handing the value to a receiver already
waiting on the channel: the buffer is not used. -/
def Thread.handoff : Thread → Machine → Option (Thread × Machine)
  | Thread.send p srcif (SendPC.loop rng j), m =>
    match rng[j]? with
    | some (some a) =>
      if (m.chans a).closed = false ∧ (m.chans a).buf = [] then
        some (Thread.send p srcif (SendPC.loop rng (j + 1)),
          { m with delivered := m.delivered ++ [(a, { packet := p, srcif := srcif })] })
      else none
    | _ => none
  | _, _ => none

/-- Shared state plus the threads currently inside the two methods. -/
structure Config where
  m : Machine
  threads : List Thread

/-- What can happen next. -/
inductive Action where
  /-- thread `i` executes its next statement -/
  | run (i : Nat)
  /-- the channel send of thread `i` is taken by a waiting receiver -/
  | handoff (i : Nat)
  /-- the owner of channel `a` receives one value from it -/
  | recv (a : Nat)
  /-- the owner of channel `a` closes it -/
  | close (a : Nat)
deriving DecidableEq, Repr

/-- Effect of one action; an action that is not enabled changes nothing. -/
def Config.act (c : Config) : Action → Config
  | Action.run i =>
    match c.threads[i]? with
    | none => c
    | some t =>
      match t.step c.m with
      | none => c
      | some (t1, m1) => { m := m1, threads := c.threads.set i t1 }
  | Action.handoff i =>
    match c.threads[i]? with
    | none => c
    | some t =>
      match t.handoff c.m with
      | none => c
      | some (t1, m1) => { m := m1, threads := c.threads.set i t1 }
  | Action.recv a =>
    { c with m := { c.m with
        chans := setChan c.m.chans a { c.m.chans a with buf := (c.m.chans a).buf.tail } } }
  | Action.close a =>
    { c with m := { c.m with
        chans := setChan c.m.chans a { c.m.chans a with closed := true } } }

/-- Run a schedule, oldest action first. -/
def Config.exec (c : Config) (sched : List Action) : Config :=
  sched.foldl Config.act c

/-- Start of a concurrent run: free lock, subscriber list `l0`, nothing
delivered yet, and one thread per call, none of which has started. -/
def Config.init (l0 : List ChanRef) (chans : Nat → Chan) (calls : List Call) : Config :=
  { m := { s := { lock := { held := false }, senders := l0 }, chans := chans,
           delivered := [] },
    threads := calls.map Thread.start }

/-- The thread is between its `Lock()` and its `Unlock()` (a panicked thread
never unlocks). -/
def Thread.inCritical : Thread → Bool
  | Thread.send _ _ SendPC.lock => false
  | Thread.send _ _ SendPC.done => false
  | Thread.send _ _ _ => true
  | Thread.register _ RegPC.lock => false
  | Thread.register _ RegPC.done => false
  | Thread.register _ _ => true

/-- The entry a `RegisterSender` thread has stored into the list, if it has. -/
def Thread.stored : Thread → Option ChanRef
  | Thread.register c RegPC.unlock => some c
  | Thread.register c RegPC.done => some c
  | _ => none

/-- The thread has returned. -/
def Thread.isDone : Thread → Bool
  | Thread.send _ _ SendPC.done => true
  | Thread.register _ RegPC.done => true
  | _ => false

/-- The handle a call registers, if it is a `RegisterSender`. -/
def Call.registrant : Call → Option ChanRef
  | Call.register c => some c
  | Call.send _ _ => none

/-- What a thread in the middle of its critical section has read of the list
agrees with the list now: a traversal runs over the current list, a pending
store is the current list plus the new entry; and no thread has hit the fatal
unlock error or left the slice bounds. -/
def Thread.consistent (senders : List ChanRef) : Thread → Prop
  | Thread.send _ _ (SendPC.loop rng j) => rng = senders ∧ j ≤ rng.length
  | Thread.register c (RegPC.assign tmp) => tmp = senders ++ [c]
  | Thread.register _ RegPC.panicked => False
  | _ => True

/-- The call a thread is executing. -/
def Thread.call : Thread → Call
  | Thread.send p srcif _ => Call.send p srcif
  | Thread.register c _ => Call.register c

/-- Lock discipline of a configuration reached from the subscriber list `l0`
and the calls `calls`. -/
structure Inv (l0 : List ChanRef) (calls : List Call) (c : Config) : Prop where
  /-- at most one thread is inside a critical section -/
  excl : ∀ (i j : Nat) (ti tj : Thread), c.threads[i]? = some ti → c.threads[j]? = some tj →
    ti.inCritical = true → tj.inCritical = true → i = j
  /-- the mutex is held exactly when some thread is inside its critical section -/
  held : c.m.s.lock.held = true ↔
    ∃ (i : Nat) (t : Thread), c.threads[i]? = some t ∧ t.inCritical = true
  /-- what threads have read of the list is the list as it is now -/
  cons : ∀ (i : Nat) (t : Thread), c.threads[i]? = some t → t.consistent c.m.s.senders
  /-- the list is the initial one plus exactly the entries stored so far -/
  perm : List.Perm c.m.s.senders (l0 ++ c.threads.filterMap Thread.stored)
  /-- thread `i` executes call `i` -/
  calls : c.threads.map Thread.call = calls

/-- The thread has panicked. -/
def Thread.isPanicked : Thread → Bool
  | Thread.send _ _ SendPC.panicked => true
  | Thread.register _ RegPC.panicked => true
  | _ => false

/-- One goroutine making one call, nothing else running. -/
def Config.alone (m : Machine) (x : Call) : Config :=
  { m := m, threads := [Thread.start x] }

/-- Let thread 0 execute `n` statements. -/
def Config.runAlone (c : Config) (n : Nat) : Config :=
  c.exec (List.replicate n (Action.run 0))

/-- Counterexample state for C7: a zero feed and a heap where the consumer has
already closed its channel at address 0. -/
def closedHeap : Machine :=
  { s := SendPktFeed.zero,
    chans := fun _ => { buf := [], cap := 1, closed := true },
    delivered := [] }

/-! ## Lemmas -/

theorem Machine.eq_of_fields {m1 m2 : Machine} (hs : m1.s = m2.s)
    (hc : ∀ a, m1.chans a = m2.chans a) (hd : m1.delivered = m2.delivered) :
    m1 = m2 := by
  cases m1; cases m2
  simp only at hs hc hd
  obtain rfl := funext hc
  subst hs hd
  rfl

theorem deliver_nil (v : Send) (m : Machine) : deliver [] v m = m := by
  apply Machine.eq_of_fields <;> simp [deliver]

theorem Chan.send_ok (c : Chan) (v : Send) (ho : c.closed = false)
    (hr : c.buf.length < c.cap) :
    c.send v = SendStep.ok { c with buf := c.buf ++ [v] } := by
  simp [Chan.send, ho, hr]

theorem Chan.send_block (c : Chan) (v : Send) (ho : c.closed = false)
    (hr : c.cap ≤ c.buf.length) : c.send v = SendStep.block := by
  simp [Chan.send, ho, Nat.not_lt.mpr hr]

theorem deliver_cons (a : Nat) (as : List Nat) (v : Send) (m : Machine) :
    deliver as v
      { m with
        chans := setChan m.chans a { m.chans a with buf := (m.chans a).buf ++ [v] },
        delivered := m.delivered ++ [(a, v)] }
    = deliver (a :: as) v m := by
  apply Machine.eq_of_fields
  · simp [deliver]
  · intro b
    by_cases hb : b = a
    · subst hb
      simp [deliver, setChan, List.count_cons, List.replicate_succ]
    · have hb2 : ¬ a = b := fun h => hb h.symm
      simp [deliver, setChan, List.count_cons, hb, hb2]
  · simp [deliver]

theorem sendLoop_ok (v : Send) (a : Nat) (rest : List ChanRef) (j : Nat) (m : Machine)
    (ho : (m.chans a).closed = false) (hr : (m.chans a).buf.length < (m.chans a).cap) :
    sendLoop v (some a :: rest) j m
      = sendLoop v rest (j + 1)
          { m with
            chans := setChan m.chans a { m.chans a with buf := (m.chans a).buf ++ [v] },
            delivered := m.delivered ++ [(a, v)] } := by
  simp only [sendLoop, Chan.send_ok _ v ho hr]

theorem Roomy.head {m : Machine} {a : Nat} {ds : List Nat} (h : Roomy m (a :: ds) 1) :
    (m.chans a).closed = false ∧ (m.chans a).buf.length < (m.chans a).cap := by
  have ha := h a (List.mem_cons_self a ds)
  refine ⟨ha.1, ?_⟩
  have := ha.2
  simp [List.count_cons] at this
  omega

theorem Roomy.tail {m : Machine} {a : Nat} {ds : List Nat} (v : Send)
    (h : Roomy m (a :: ds) 1) :
    Roomy
      { m with
        chans := setChan m.chans a { m.chans a with buf := (m.chans a).buf ++ [v] },
        delivered := m.delivered ++ [(a, v)] } ds 1 := by
  intro b hb
  have hb2 := h b (List.mem_cons_of_mem a hb)
  by_cases hba : b = a
  · subst hba
    simp [setChan, List.count_cons] at hb2 ⊢
    exact ⟨hb2.1, by omega⟩
  · have hab : ¬ a = b := fun h => hba h.symm
    simp [setChan, hba, List.count_cons, hab] at hb2 ⊢
    exact hb2

/-- While the deliveries fit, the loop consumes the slice front to back. -/
theorem sendLoop_deliver (v : Send) (rest : List ChanRef) :
    ∀ (ds : List Nat) (j : Nat) (m : Machine), Roomy m ds 1 →
      sendLoop v (ds.map some ++ rest) j m
        = sendLoop v rest (j + ds.length) (deliver ds v m) := by
  intro ds
  induction ds with
  | nil => intro j m _; simp [deliver_nil]
  | cons a ds ih =>
    intro j m h
    rw [List.map_cons, List.cons_append, sendLoop_ok v a _ j m h.head.1 h.head.2,
      ih _ _ (h.tail v), deliver_cons]
    congr 1
    simp
    omega

theorem deliver_s (as : List Nat) (v : Send) (m : Machine) : (deliver as v m).s = m.s := rfl

theorem Send_eq_of_free (m : Machine) (p : Packet) (srcif : String)
    (h : m.s.lock.held = false) :
    SendPktFeed.Send m p srcif =
      match sendLoop { packet := p, srcif := srcif } m.s.senders 0 (acquire m) with
      | Outcome.returned m1 =>
        match m1.s.lock.Unlock with
        | none => Outcome.fatalUnlock m1
        | some l1 => Outcome.returned { m1 with s := { m1.s with lock := l1 } }
      | o => o := by
  simp [SendPktFeed.Send, Mutex.Lock, h, acquire]

theorem Send_eq_of_held (m : Machine) (p : Packet) (srcif : String)
    (h : m.s.lock.held = true) :
    SendPktFeed.Send m p srcif = Outcome.blockedOnLock m := by
  simp [SendPktFeed.Send, Mutex.Lock, h]

theorem RegisterSender_eq_of_held (m : Machine) (c : ChanRef)
    (h : m.s.lock.held = true) :
    SendPktFeed.RegisterSender m c = Outcome.blockedOnLock m := by
  simp [SendPktFeed.RegisterSender, Mutex.Lock, h]

theorem RegisterSender_eq_of_free (m : Machine) (c : ChanRef)
    (h : m.s.lock.held = false) :
    SendPktFeed.RegisterSender m c
      = Outcome.returned { m with s := { m.s with senders := m.s.senders ++ [c] } } := by
  obtain ⟨⟨⟨held⟩, senders⟩, chans, delivered⟩ := m
  simp only at h
  subst h
  rfl

/-- Happy path of one `Send`: lock free, every entry a channel with room. -/
theorem Send_deliver (m : Machine) (p : Packet) (srcif : String) (as : List Nat)
    (hfree : m.s.lock.held = false) (hs : m.s.senders = as.map some)
    (hroom : Roomy m as 1) :
    SendPktFeed.Send m p srcif
      = Outcome.returned (deliver as { packet := p, srcif := srcif } m) := by
  have h := sendLoop_deliver { packet := p, srcif := srcif } [] as 0 (acquire m) hroom
  rw [List.append_nil] at h
  rw [Send_eq_of_free m p srcif hfree, hs, h]
  simp only [sendLoop, deliver_s, acquire, Mutex.Unlock, if_true]
  congr 1
  apply Machine.eq_of_fields
  · obtain ⟨⟨⟨held⟩, senders⟩, chans, delivered⟩ := m
    simp only at hfree
    subst hfree
    rfl
  · intro a; rfl
  · rfl

theorem deliver_closed (ds : List Nat) (v : Send) (m : Machine) (a : Nat) :
    ((deliver ds v m).chans a).closed = (m.chans a).closed := rfl

theorem deliver_cap (ds : List Nat) (v : Send) (m : Machine) (a : Nat) :
    ((deliver ds v m).chans a).cap = (m.chans a).cap := rfl

theorem deliver_buf (ds : List Nat) (v : Send) (m : Machine) (a : Nat) :
    ((deliver ds v m).chans a).buf = (m.chans a).buf ++ List.replicate (ds.count a) v := rfl

theorem deliver_delivered (ds : List Nat) (v : Send) (m : Machine) :
    (deliver ds v m).delivered = m.delivered ++ ds.map (fun a => (a, v)) := rfl

/-- The loop on a slice split into a deliverable front and a stopping rest. -/
theorem sendLoop_stop (v : Send) (ds : List Nat) (rest : List ChanRef) (j : Nat)
    (m : Machine) (hroom : Roomy m ds 1) (hstop : Stops m ds rest) :
    sendLoop v (ds.map some ++ rest) j m
      = stopOutcome (j + ds.length) (deliver ds v m) rest := by
  rw [sendLoop_deliver v rest ds j m hroom]
  match rest, hstop with
  | [], _ => rfl
  | none :: _, _ => rfl
  | some a :: rest, h =>
    simp only [Stops] at h
    by_cases hc : (m.chans a).closed = true
    · simp [sendLoop, stopOutcome, Chan.send, deliver_closed, hc]
    · have hc2 : (m.chans a).closed = false := by simpa using hc
      have hfull : (m.chans a).cap ≤ (m.chans a).buf.length + ds.count a := by
        rcases h with h | h
        · exact absurd h hc
        · exact h
      have hsend : ((deliver ds v m).chans a).send v = SendStep.block := by
        apply Chan.send_block
        · rw [deliver_closed]; exact hc2
        · rw [deliver_cap, deliver_buf]; simpa using hfull
      simp [sendLoop, stopOutcome, hsend, deliver_closed, hc2]

/-- Every slice splits, for the given heap, into a deliverable front and a rest
at whose head the loop stops. -/
theorem exists_front (m : Machine) (l : List ChanRef) :
    ∃ (ds : List Nat) (rest : List ChanRef),
      l = ds.map some ++ rest ∧ Roomy m ds 1 ∧ Stops m ds rest := by
  induction l using List.reverseRecOn with
  | nil => exact ⟨[], [], rfl, fun a ha => by simp at ha, trivial⟩
  | append_singleton l x ih =>
    obtain ⟨ds, rest, hl, hroom, hstop⟩ := ih
    cases rest with
    | cons y rest =>
      refine ⟨ds, y :: rest ++ [x], by simp [hl], hroom, ?_⟩
      cases y
      · trivial
      · simpa [Stops] using hstop
    | nil =>
      cases x with
      | none => exact ⟨ds, [none], by simp [hl], hroom, trivial⟩
      | some a =>
        by_cases hc : (m.chans a).closed = true
        · exact ⟨ds, [some a], by simp [hl], hroom, Or.inl hc⟩
        · by_cases hf : (m.chans a).cap ≤ (m.chans a).buf.length + ds.count a
          · exact ⟨ds, [some a], by simp [hl], hroom, Or.inr hf⟩
          · refine ⟨ds ++ [a], [], by simp [hl], ?_, trivial⟩
            intro b hb
            by_cases hba : b = a
            · subst hba
              refine ⟨by simpa using hc, ?_⟩
              simp [List.count_append] at hf ⊢
              omega
            · have hbds : b ∈ ds := by
                rcases List.mem_append.mp hb with h | h
                · exact h
                · exact absurd (List.mem_singleton.mp h) hba
              have := hroom b hbds
              have hab : ¬ a = b := fun h => hba h.symm
              simpa [List.count_append, List.count_cons, hab] using this

/-- One `Send` on a free lock, for any split of the slice. -/
theorem Send_split (m : Machine) (p : Packet) (srcif : String) (ds : List Nat)
    (rest : List ChanRef) (hfree : m.s.lock.held = false)
    (hs : m.s.senders = ds.map some ++ rest) (hroom : Roomy m ds 1)
    (hstop : Stops m ds rest) :
    SendPktFeed.Send m p srcif = sendOutcome m ds { packet := p, srcif := srcif } rest := by
  cases rest with
  | nil =>
    rw [List.append_nil] at hs
    exact Send_deliver m p srcif ds hfree hs hroom
  | cons x rest =>
    have h := sendLoop_stop { packet := p, srcif := srcif } ds (x :: rest) 0 (acquire m)
      hroom hstop
    rw [Send_eq_of_free m p srcif hfree, hs, h, Nat.zero_add]
    cases x with
    | none => rfl
    | some a =>
      simp only [sendOutcome, stopOutcome]
      by_cases hc : ((deliver ds { packet := p, srcif := srcif } (acquire m)).chans a).closed
          = true
      · simp only [hc, if_true]
      · simp [hc]

theorem deliverAll_nil (as : List Nat) (m : Machine) : deliverAll as [] m = m := rfl

theorem deliverAll_cons (as : List Nat) (v : Send) (vs : List Send) (m : Machine) :
    deliverAll as (v :: vs) m = deliverAll as vs (deliver as v m) := rfl

theorem deliverAll_s (as : List Nat) (vs : List Send) :
    ∀ m : Machine, (deliverAll as vs m).s = m.s := by
  induction vs with
  | nil => intro m; rfl
  | cons v vs ih => intro m; rw [deliverAll_cons, ih, deliver_s]

theorem deliverAll_closed (as : List Nat) (vs : List Send) (a : Nat) :
    ∀ m : Machine, ((deliverAll as vs m).chans a).closed = (m.chans a).closed := by
  induction vs with
  | nil => intro m; rfl
  | cons v vs ih => intro m; rw [deliverAll_cons, ih, deliver_closed]

theorem deliverAll_cap (as : List Nat) (vs : List Send) (a : Nat) :
    ∀ m : Machine, ((deliverAll as vs m).chans a).cap = (m.chans a).cap := by
  induction vs with
  | nil => intro m; rfl
  | cons v vs ih => intro m; rw [deliverAll_cons, ih, deliver_cap]

theorem deliverAll_buf (as : List Nat) (vs : List Send) (a : Nat) :
    ∀ m : Machine, ((deliverAll as vs m).chans a).buf
      = (m.chans a).buf ++ vs.flatMap (fun v => List.replicate (as.count a) v) := by
  induction vs with
  | nil => intro m; simp [deliverAll_nil]
  | cons v vs ih =>
    intro m
    rw [deliverAll_cons, ih, deliver_buf]
    simp [List.flatMap_cons]

theorem deliverAll_delivered (as : List Nat) (vs : List Send) :
    ∀ m : Machine, (deliverAll as vs m).delivered
      = m.delivered ++ vs.flatMap (fun v => as.map (fun a => (a, v))) := by
  induction vs with
  | nil => intro m; simp [deliverAll_nil]
  | cons v vs ih =>
    intro m
    rw [deliverAll_cons, ih, deliver_delivered]
    simp [List.flatMap_cons]

theorem runCalls_append (cs1 cs2 : List Call) :
    ∀ m : Machine, runCalls (cs1 ++ cs2) m
      = match runCalls cs1 m with
        | Outcome.returned m1 => runCalls cs2 m1
        | o => o := by
  induction cs1 with
  | nil => intro m; rfl
  | cons c cs1 ih =>
    intro m
    simp only [List.cons_append, runCalls]
    cases hc : c.exec m <;> simp [ih]

theorem runCalls_append_returned (cs1 cs2 : List Call) (m m1 : Machine)
    (h : runCalls cs1 m = Outcome.returned m1) :
    runCalls (cs1 ++ cs2) m = runCalls cs2 m1 := by
  rw [runCalls_append, h]

theorem Roomy.mono {m : Machine} {as : List Nat} {n k : Nat} (h : Roomy m as n)
    (hk : k ≤ n) : Roomy m as k := by
  intro a ha
  refine ⟨(h a ha).1, ?_⟩
  have h1 := (h a ha).2
  have h2 : k * as.count a ≤ n * as.count a := Nat.mul_le_mul_right _ hk
  omega

theorem Roomy.deliver {m : Machine} {as : List Nat} {n : Nat} (v : Send)
    (h : Roomy m as (n + 1)) : Roomy (deliver as v m) as n := by
  intro a ha
  refine ⟨(h a ha).1, ?_⟩
  have h1 := (h a ha).2
  rw [deliver_buf, deliver_cap]
  simp only [List.length_append, List.length_replicate]
  rw [Nat.add_mul] at h1
  omega

/-- A run of `Send` calls whose deliveries all fit. -/
theorem runCalls_sends (as : List Nat) (vs : List Send) :
    ∀ m : Machine, m.s.lock.held = false → m.s.senders = as.map some →
      Roomy m as vs.length →
      runCalls (vs.map Send.call) m = Outcome.returned (deliverAll as vs m) := by
  induction vs with
  | nil => intro m _ _ _; rfl
  | cons v vs ih =>
    intro m hfree hs hroom
    have h1 : SendPktFeed.Send m v.packet v.srcif = Outcome.returned (deliver as v m) :=
      Send_deliver m v.packet v.srcif as hfree hs (hroom.mono (by simp))
    simp only [List.map_cons, runCalls, Send.call, Call.exec, h1]
    exact ih (deliver as v m) hfree hs (Roomy.deliver v hroom)

/-- A run of `RegisterSender` calls on a free lock. -/
theorem runCalls_registers (cs : List ChanRef) :
    ∀ m : Machine, m.s.lock.held = false →
      runCalls (cs.map Call.register) m = Outcome.returned (registered cs m) := by
  induction cs with
  | nil =>
    intro m _
    simp [runCalls, registered]
  | cons c cs ih =>
    intro m hfree
    simp only [List.map_cons, runCalls, Call.exec, RegisterSender_eq_of_free m c hfree]
    have h := ih (registered [c] m) hfree
    simp only [registered] at h ⊢
    rw [h]
    simp

theorem flatMap_replicate_length (vs : List Send) (n : Nat) :
    (vs.flatMap (fun v => List.replicate n v)).length = vs.length * n := by
  induction vs with
  | nil => simp
  | cons v vs ih => simp [List.flatMap_cons, ih, Nat.add_mul, Nat.add_comm]

theorem flatMap_replicate_one (vs : List Send) :
    vs.flatMap (fun v => List.replicate 1 v) = vs := by
  induction vs with
  | nil => rfl
  | cons v vs ih => simp [List.flatMap_cons, ih]

theorem flatMap_replicate_zero (vs : List Send) :
    vs.flatMap (fun v => List.replicate 0 v) = [] := by
  induction vs with
  | nil => rfl
  | cons v vs ih => simp [List.flatMap_cons, ih]

theorem Chan.eq_of_parts {c1 c2 : Chan} (hb : c1.buf = c2.buf) (hc : c1.cap = c2.cap)
    (hd : c1.closed = c2.closed) : c1 = c2 := by
  cases c1; cases c2
  simp only at hb hc hd
  subst hb hc hd
  rfl

/-- Registrations of the channels `new` followed by a run of `Send` calls whose
deliveries all fit. -/
theorem runCalls_registers_sends (m : Machine) (as new : List Nat) (vs : List Send)
    (hfree : m.s.lock.held = false) (hs : m.s.senders = as.map some)
    (hroom : Roomy m (as ++ new) vs.length) :
    runCalls (new.map (fun a => Call.register (some a)) ++ vs.map Send.call) m
      = Outcome.returned (deliverAll (as ++ new) vs (registered (new.map some) m)) := by
  have hreg : runCalls (new.map (fun a => Call.register (some a))) m
      = Outcome.returned (registered (new.map some) m) := by
    have := runCalls_registers (new.map some) m hfree
    simpa [List.map_map] using this
  rw [runCalls_append_returned _ _ _ _ hreg]
  apply runCalls_sends
  · exact hfree
  · simp [registered, hs]
  · exact hroom

theorem stopOutcome_state (j : Nat) (m : Machine) (rest : List ChanRef) :
    (stopOutcome j m rest).state = m := by
  match rest with
  | [] => rfl
  | none :: _ => rfl
  | some a :: _ =>
    simp only [stopOutcome]
    split <;> rfl

/-- Every `Send` from any state: the slice splits into a front that is served
and a rest at whose head the call stops, the same split for every envelope. -/
theorem Send_shape (m : Machine) :
    ∃ (ds : List Nat) (rest : List ChanRef),
      m.s.senders = ds.map some ++ rest ∧ Roomy m ds 1 ∧ Stops m ds rest ∧
      ∀ (p : Packet) (srcif : String),
        SendPktFeed.Send m p srcif
          = if m.s.lock.held = true then Outcome.blockedOnLock m
            else sendOutcome m ds { packet := p, srcif := srcif } rest := by
  obtain ⟨ds, rest, hs, hroom, hstop⟩ := exists_front m m.s.senders
  refine ⟨ds, rest, hs, hroom, hstop, ?_⟩
  intro p srcif
  by_cases hl : m.s.lock.held = true
  · rw [if_pos hl]
    exact Send_eq_of_held m p srcif hl
  · rw [if_neg hl]
    exact Send_split m p srcif ds rest (by simpa using hl) hs hroom hstop

theorem sendOutcome_state (m : Machine) (ds : List Nat) (v : Send) (rest : List ChanRef) :
    (sendOutcome m ds v rest).state = deliver ds v m
    ∨ (sendOutcome m ds v rest).state = deliver ds v (acquire m) := by
  cases rest with
  | nil => exact Or.inl rfl
  | cons x rest => exact Or.inr (stopOutcome_state _ _ _)

/-- The state any `Send` ends in: some front of the slice was served, and the
lock is as before or still held. -/
theorem Send_state (m : Machine) (p : Packet) (srcif : String) :
    ∃ (ds : List Nat), ds.map some <+: m.s.senders ∧
      ((SendPktFeed.Send m p srcif).state = deliver ds { packet := p, srcif := srcif } m
      ∨ (SendPktFeed.Send m p srcif).state
          = deliver ds { packet := p, srcif := srcif } (acquire m)) := by
  obtain ⟨ds, rest, hs, _, _, h⟩ := Send_shape m
  rw [h p srcif]
  by_cases hl : m.s.lock.held = true
  · rw [if_pos hl]
    exact ⟨[], by simp, Or.inl (deliver_nil _ _).symm⟩
  · rw [if_neg hl]
    exact ⟨ds, by rw [hs]; exact List.prefix_append _ _, sendOutcome_state _ _ _ _⟩

theorem RegisterSender_state (m : Machine) (e : ChanRef) :
    (SendPktFeed.RegisterSender m e).state = m
    ∨ (SendPktFeed.RegisterSender m e).state = registered [e] m := by
  by_cases hl : m.s.lock.held = true
  · rw [RegisterSender_eq_of_held m e hl]
    exact Or.inl rfl
  · rw [RegisterSender_eq_of_free m e (by simpa using hl)]
    exact Or.inr rfl

theorem Grows.refl (m : Machine) : Grows m m :=
  ⟨List.prefix_refl _, fun _ => ⟨rfl, rfl, List.prefix_refl _⟩⟩

theorem Grows.trans {m1 m2 m3 : Machine} (h12 : Grows m1 m2) (h23 : Grows m2 m3) :
    Grows m1 m3 :=
  ⟨h12.1.trans h23.1, fun a =>
    ⟨(h23.2 a).1.trans (h12.2 a).1, (h23.2 a).2.1.trans (h12.2 a).2.1,
      (h12.2 a).2.2.trans (h23.2 a).2.2⟩⟩

theorem Send_grows (m : Machine) (p : Packet) (srcif : String) :
    Grows m (SendPktFeed.Send m p srcif).state := by
  obtain ⟨ds, _, h⟩ := Send_state m p srcif
  rcases h with h | h <;> rw [h] <;>
    exact ⟨List.prefix_refl _, fun a => ⟨rfl, rfl, List.prefix_append _ _⟩⟩

theorem RegisterSender_grows (m : Machine) (e : ChanRef) :
    Grows m (SendPktFeed.RegisterSender m e).state := by
  rcases RegisterSender_state m e with h | h <;> rw [h]
  · exact Grows.refl m
  · exact ⟨List.prefix_append _ _, fun a => ⟨rfl, rfl, List.prefix_refl _⟩⟩

theorem Call.exec_grows (c : Call) (m : Machine) : Grows m (c.exec m).state := by
  cases c with
  | send p srcif => exact Send_grows m p srcif
  | register e => exact RegisterSender_grows m e

theorem runCalls_grows (cs : List Call) : ∀ m : Machine, Grows m (runCalls cs m).state := by
  induction cs with
  | nil => intro m; exact Grows.refl m
  | cons c cs ih =>
    intro m
    have hc := Call.exec_grows c m
    simp only [runCalls]
    cases hx : c.exec m with
    | returned m1 =>
      rw [hx] at hc
      exact hc.trans (ih m1)
    | blockedOnLock m1 => rw [hx] at hc; exact hc
    | blockedOnSend j m1 => rw [hx] at hc; exact hc
    | panicked j m1 => rw [hx] at hc; exact hc
    | fatalUnlock m1 => rw [hx] at hc; exact hc

theorem stopOutcome_shape (j : Nat) (m1 m2 : Machine) (rest : List ChanRef)
    (h : ∀ a, (m1.chans a).closed = (m2.chans a).closed) :
    (stopOutcome j m1 rest).shape = (stopOutcome j m2 rest).shape := by
  match rest with
  | [] => rfl
  | none :: _ => rfl
  | some a :: _ =>
    simp only [stopOutcome, h a]
    split <;> rfl

theorem sendOutcome_shape (m : Machine) (ds : List Nat) (v1 v2 : Send)
    (rest : List ChanRef) :
    (sendOutcome m ds v1 rest).shape = (sendOutcome m ds v2 rest).shape := by
  cases rest with
  | nil => rfl
  | cons x rest => exact stopOutcome_shape _ _ _ _ (fun _ => rfl)

theorem sendOutcome_delivered (m : Machine) (ds : List Nat) (v : Send)
    (rest : List ChanRef) :
    (sendOutcome m ds v rest).state.delivered = m.delivered ++ ds.map (fun a => (a, v)) := by
  rcases sendOutcome_state m ds v rest with h | h <;> rw [h] <;> rfl

theorem sendOutcome_buf (m : Machine) (ds : List Nat) (v : Send)
    (rest : List ChanRef) (a : Nat) :
    ((sendOutcome m ds v rest).state.chans a).buf
      = (m.chans a).buf ++ List.replicate (ds.count a) v := by
  rcases sendOutcome_state m ds v rest with h | h <;> rw [h] <;> rfl

theorem sendOutcome_returned (m : Machine) (ds : List Nat) (v : Send)
    (rest : List ChanRef) (h : (sendOutcome m ds v rest).isReturned = true) : rest = [] := by
  match rest with
  | [] => rfl
  | none :: _ => simp [sendOutcome, stopOutcome, Outcome.isReturned] at h
  | some a :: _ =>
    simp only [sendOutcome, stopOutcome] at h
    split at h <;> simp [Outcome.isReturned] at h

theorem sendOutcome_index (m : Machine) (ds : List Nat) (v : Send)
    (rest : List ChanRef) (k : Nat) (h : (sendOutcome m ds v rest).index = some k) :
    k = ds.length := by
  match rest with
  | [] => simp [sendOutcome, Outcome.index] at h
  | none :: _ => simp [sendOutcome, stopOutcome, Outcome.index] at h; exact h.symm
  | some a :: _ =>
    simp only [sendOutcome, stopOutcome] at h
    split at h <;> simp [Outcome.index] at h <;> exact h.symm

theorem getElem?_set_cases {α : Type} (l : List α) (i j : Nat) (x y : α)
    (h : (l.set i x)[j]? = some y) : (j = i ∧ y = x) ∨ (j ≠ i ∧ l[j]? = some y) := by
  rw [List.getElem?_set] at h
  by_cases hij : i = j
  · subst hij
    rw [if_pos rfl] at h
    by_cases hlt : i < l.length
    · rw [if_pos hlt] at h
      exact Or.inl ⟨rfl, (Option.some.inj h).symm⟩
    · rw [if_neg hlt] at h
      cases h
  · rw [if_neg hij] at h
    exact Or.inr ⟨fun h2 => hij h2.symm, h⟩

theorem getElem?_set_other {α : Type} (l : List α) (i j : Nat) (x y : α) (hji : j ≠ i)
    (h : l[j]? = some y) : (l.set i x)[j]? = some y := by
  rw [List.getElem?_set_ne (fun h2 => hji h2.symm)]
  exact h

theorem getElem?_set_here {α : Type} (l : List α) (i : Nat) (x y : α)
    (h : l[i]? = some y) : (l.set i x)[i]? = some x := by
  obtain ⟨hlt, _⟩ := List.getElem?_eq_some.mp h
  exact List.getElem?_set_self hlt

theorem filterMap_set_same {α β : Type} (f : α → Option β) (x1 : α) :
    ∀ (l : List α) (i : Nat) (x : α), l[i]? = some x → f x1 = f x →
      (l.set i x1).filterMap f = l.filterMap f := by
  intro l
  induction l with
  | nil => intro i x h _; simp at h
  | cons y ys ih =>
    intro i x h hf
    cases i with
    | zero =>
      simp only [List.getElem?_cons_zero, Option.some.injEq] at h
      subst h
      simp [List.set_cons_zero, List.filterMap_cons, hf]
    | succ n =>
      rw [List.getElem?_cons_succ] at h
      simp [List.set_cons_succ, List.filterMap_cons, ih n x h hf]

theorem filterMap_set_new {α β : Type} (f : α → Option β) (x1 : α) (e : β) :
    ∀ (l : List α) (i : Nat) (x : α), l[i]? = some x → f x = none → f x1 = some e →
      List.Perm ((l.set i x1).filterMap f) (e :: l.filterMap f) := by
  intro l
  induction l with
  | nil => intro i x h _ _; simp at h
  | cons y ys ih =>
    intro i x h hf hf1
    cases i with
    | zero =>
      simp only [List.getElem?_cons_zero, Option.some.injEq] at h
      subst h
      simp [List.set_cons_zero, List.filterMap_cons, hf, hf1]
    | succ n =>
      rw [List.getElem?_cons_succ] at h
      have hrec := ih n x h hf hf1
      rw [List.set_cons_succ, List.filterMap_cons, List.filterMap_cons]
      cases hy : f y with
      | none => simpa using hrec
      | some b =>
        simp only
        exact (List.Perm.cons b hrec).trans (List.Perm.swap e b _)

theorem Thread.consistent_of_not_critical (t : Thread) (l : List ChanRef)
    (h : t.inCritical = false) : t.consistent l := by
  cases t with
  | send p srcif pc => cases pc <;> simp_all [Thread.inCritical, Thread.consistent]
  | register c pc => cases pc <;> simp_all [Thread.inCritical, Thread.consistent]

/-- One thread moves from `t` to `t1` and the shared state to `m1`: conditions
under which the lock discipline is kept. -/
theorem Inv.step {l0 : List ChanRef} {calls : List Call} {c : Config} {i : Nat}
    {t t1 : Thread} {m1 : Machine} (hinv : Inv l0 calls c) (hi : c.threads[i]? = some t)
    (hcall : t1.call = t.call)
    (hcrit : t1.inCritical = true → t.inCritical = true ∨ c.m.s.lock.held = false)
    (hlock : m1.s.lock.held = true ↔
      (t1.inCritical = true ∨ (c.m.s.lock.held = true ∧ t.inCritical = false)))
    (hcons : t1.consistent m1.s.senders)
    (hsend : m1.s.senders = c.m.s.senders ∨ t.inCritical = true)
    (hperm : (m1.s.senders = c.m.s.senders ∧ t1.stored = t.stored) ∨
      (∃ e, t.stored = none ∧ t1.stored = some e ∧ m1.s.senders = c.m.s.senders ++ [e])) :
    Inv l0 calls { m := m1, threads := c.threads.set i t1 } := by
  have hnone : c.m.s.lock.held = false →
      ∀ (j : Nat) (tj : Thread), c.threads[j]? = some tj → tj.inCritical = false := by
    intro hfree j tj hj
    by_contra hc
    have hc2 : tj.inCritical = true := by simpa using hc
    have := hinv.held.mpr ⟨j, tj, hj, hc2⟩
    rw [hfree] at this
    cases this
  have hother : t1.inCritical = true →
      ∀ (j : Nat) (tj : Thread), j ≠ i → c.threads[j]? = some tj →
        tj.inCritical = true → False := by
    intro h1 j tj hji hj hjc
    rcases hcrit h1 with ht | hfree
    · exact hji (hinv.excl j i tj t hj hi hjc ht)
    · have := hnone hfree j tj hj
      rw [hjc] at this
      cases this
  refine ⟨?_, ?_, ?_, ?_, ?_⟩
  · intro j k tj tk hj hk hjc hkc
    simp only at hj hk
    rcases getElem?_set_cases _ _ _ _ _ hj with ⟨hji, hjt⟩ | ⟨hji, hj2⟩
    · rcases getElem?_set_cases _ _ _ _ _ hk with ⟨hki, _⟩ | ⟨hki, hk2⟩
      · rw [hji, hki]
      · subst hjt
        exact (hother hjc k tk hki hk2 hkc).elim
    · rcases getElem?_set_cases _ _ _ _ _ hk with ⟨_, hkt⟩ | ⟨_, hk2⟩
      · subst hkt
        exact (hother hkc j tj hji hj2 hjc).elim
      · exact hinv.excl j k tj tk hj2 hk2 hjc hkc
  · simp only
    rw [hlock]
    constructor
    · rintro (h1 | ⟨hheld, htc⟩)
      · exact ⟨i, t1, getElem?_set_here _ _ _ _ hi, h1⟩
      · obtain ⟨j, tj, hj, hjc⟩ := hinv.held.mp hheld
        have hji : j ≠ i := by
          intro h
          subst h
          rw [hi] at hj
          cases hj
          rw [hjc] at htc
          cases htc
        exact ⟨j, tj, getElem?_set_other _ _ _ _ _ hji hj, hjc⟩
    · rintro ⟨j, tj, hj, hjc⟩
      rcases getElem?_set_cases _ _ _ _ _ hj with ⟨_, hjt⟩ | ⟨hji, hj2⟩
      · subst hjt
        exact Or.inl hjc
      · right
        refine ⟨hinv.held.mpr ⟨j, tj, hj2, hjc⟩, ?_⟩
        by_contra hc
        have hc2 : t.inCritical = true := by simpa using hc
        exact hji (hinv.excl j i tj t hj2 hi hjc hc2)
  · intro j tj hj
    simp only at hj ⊢
    rcases getElem?_set_cases _ _ _ _ _ hj with ⟨_, hjt⟩ | ⟨hji, hj2⟩
    · subst hjt
      exact hcons
    · rcases hsend with hs | htc
      · rw [hs]
        exact hinv.cons j tj hj2
      · apply Thread.consistent_of_not_critical
        by_contra hc
        have hc2 : tj.inCritical = true := by simpa using hc
        exact hji (hinv.excl j i tj t hj2 hi hc2 htc)
  · simp only
    rcases hperm with ⟨hs, hst⟩ | ⟨e, hst, hst1, hs⟩
    · rw [hs, filterMap_set_same Thread.stored t1 _ i t hi hst]
      exact hinv.perm
    · rw [hs]
      have h1 := filterMap_set_new Thread.stored t1 e _ i t hi hst hst1
      have h2 : List.Perm (c.m.s.senders ++ [e])
          (l0 ++ (e :: c.threads.filterMap Thread.stored)) :=
        ((hinv.perm.append_right [e]).trans
          (by rw [List.append_assoc]
              exact List.Perm.append_left l0 (List.perm_append_singleton e _)))
      exact h2.trans (List.Perm.append_left l0 h1.symm)
  · simp only
    rw [← hinv.calls]
    apply List.ext_getElem?
    intro k
    rw [List.getElem?_map, List.getElem?_map, List.getElem?_set]
    by_cases hik : i = k
    · subst hik
      obtain ⟨hlt, _⟩ := List.getElem?_eq_some.mp hi
      rw [if_pos rfl, if_pos hlt, hi]
      simp [hcall]
    · rw [if_neg hik]

theorem Inv.held_of_critical {l0 : List ChanRef} {calls : List Call} {c : Config} {i : Nat}
    {t : Thread} (hinv : Inv l0 calls c) (hi : c.threads[i]? = some t)
    (ht : t.inCritical = true) : c.m.s.lock.held = true :=
  hinv.held.mpr ⟨i, t, hi, ht⟩

/-- A statement of one thread keeps the lock discipline. -/
theorem Inv.run {l0 : List ChanRef} {calls : List Call} {c : Config} {i : Nat}
    {t t1 : Thread} {m1 : Machine} (hinv : Inv l0 calls c) (hi : c.threads[i]? = some t)
    (hstep : t.step c.m = some (t1, m1)) :
    Inv l0 calls { m := m1, threads := c.threads.set i t1 } := by
  have hc := hinv.cons i t hi
  cases t with
  | send p srcif pc =>
    cases pc with
    | lock =>
      by_cases hl : c.m.s.lock.held = true
      · simp [Thread.step, Mutex.Lock, hl] at hstep
      · simp [Thread.step, Mutex.Lock, hl] at hstep
        obtain ⟨rfl, rfl⟩ := hstep
        refine Inv.step hinv hi rfl ?_ ?_ ?_ ?_ ?_ <;>
          simp [Thread.inCritical, Thread.consistent, Thread.stored, hl]
    | range =>
      simp [Thread.step] at hstep
      obtain ⟨rfl, rfl⟩ := hstep
      have hl := hinv.held_of_critical hi rfl
      refine Inv.step hinv hi rfl ?_ ?_ ?_ ?_ ?_ <;>
        simp [Thread.inCritical, Thread.consistent, Thread.stored, hl]
    | loop rng j =>
      have hl := hinv.held_of_critical hi rfl
      simp only [Thread.consistent] at hc
      simp only [Thread.step] at hstep
      split at hstep
      · simp only [Option.some.injEq, Prod.mk.injEq] at hstep
        obtain ⟨rfl, rfl⟩ := hstep
        refine Inv.step hinv hi rfl ?_ ?_ ?_ ?_ ?_ <;>
          simp [Thread.inCritical, Thread.consistent, Thread.stored, hl]
      · cases hstep
      · rename_i a hget
        split at hstep
        · simp only [Option.some.injEq, Prod.mk.injEq] at hstep
          obtain ⟨rfl, rfl⟩ := hstep
          have hlt : j < rng.length := (List.getElem?_eq_some.mp hget).1
          refine Inv.step hinv hi rfl ?_ ?_ ?_ ?_ ?_ <;>
            simp [Thread.inCritical, Thread.consistent, Thread.stored, hl, hc.1]
          rw [← hc.1]
          omega
        · cases hstep
        · simp only [Option.some.injEq, Prod.mk.injEq] at hstep
          obtain ⟨rfl, rfl⟩ := hstep
          refine Inv.step hinv hi rfl ?_ ?_ ?_ ?_ ?_ <;>
            simp [Thread.inCritical, Thread.consistent, Thread.stored, hl]
    | unlock =>
      have hl := hinv.held_of_critical hi rfl
      simp [Thread.step, Mutex.Unlock, hl] at hstep
      obtain ⟨rfl, rfl⟩ := hstep
      refine Inv.step hinv hi rfl ?_ ?_ ?_ ?_ ?_ <;>
        simp [Thread.inCritical, Thread.consistent, Thread.stored, hl]
    | done => simp [Thread.step] at hstep
    | panicked => simp [Thread.step] at hstep
  | register e pc =>
    cases pc with
    | lock =>
      by_cases hl : c.m.s.lock.held = true
      · simp [Thread.step, Mutex.Lock, hl] at hstep
      · simp [Thread.step, Mutex.Lock, hl] at hstep
        obtain ⟨rfl, rfl⟩ := hstep
        refine Inv.step hinv hi rfl ?_ ?_ ?_ ?_ ?_ <;>
          simp [Thread.inCritical, Thread.consistent, Thread.stored, hl]
    | append =>
      simp [Thread.step] at hstep
      obtain ⟨rfl, rfl⟩ := hstep
      have hl := hinv.held_of_critical hi rfl
      refine Inv.step hinv hi rfl ?_ ?_ ?_ ?_ ?_ <;>
        simp [Thread.inCritical, Thread.consistent, Thread.stored, hl]
    | assign tmp =>
      have hl := hinv.held_of_critical hi rfl
      simp only [Thread.consistent] at hc
      simp [Thread.step] at hstep
      obtain ⟨rfl, rfl⟩ := hstep
      refine Inv.step hinv hi rfl ?_ ?_ ?_ ?_ ?_ <;>
        simp [Thread.inCritical, Thread.consistent, Thread.stored, hl, hc]
    | unlock =>
      have hl := hinv.held_of_critical hi rfl
      simp [Thread.step, Mutex.Unlock, hl] at hstep
      obtain ⟨rfl, rfl⟩ := hstep
      refine Inv.step hinv hi rfl ?_ ?_ ?_ ?_ ?_ <;>
        simp [Thread.inCritical, Thread.consistent, Thread.stored, hl]
    | done => simp [Thread.step] at hstep
    | panicked => simp [Thread.step] at hstep

/-- A send completed by a waiting receiver keeps the lock discipline. -/
theorem Inv.handoff {l0 : List ChanRef} {calls : List Call} {c : Config} {i : Nat}
    {t t1 : Thread} {m1 : Machine} (hinv : Inv l0 calls c) (hi : c.threads[i]? = some t)
    (hstep : t.handoff c.m = some (t1, m1)) :
    Inv l0 calls { m := m1, threads := c.threads.set i t1 } := by
  have hc := hinv.cons i t hi
  cases t with
  | register e pc => simp [Thread.handoff] at hstep
  | send p srcif pc =>
    cases pc with
    | loop rng j =>
      have hl := hinv.held_of_critical hi rfl
      simp only [Thread.consistent] at hc
      simp only [Thread.handoff] at hstep
      split at hstep
      · rename_i a hget
        split at hstep
        · simp only [Option.some.injEq, Prod.mk.injEq] at hstep
          obtain ⟨rfl, rfl⟩ := hstep
          have hlt : j < rng.length := (List.getElem?_eq_some.mp hget).1
          refine Inv.step hinv hi rfl ?_ ?_ ?_ ?_ ?_ <;>
            simp [Thread.inCritical, Thread.consistent, Thread.stored, hl, hc.1]
          rw [← hc.1]
          omega
        · cases hstep
      · cases hstep
    | lock => simp [Thread.handoff] at hstep
    | range => simp [Thread.handoff] at hstep
    | unlock => simp [Thread.handoff] at hstep
    | done => simp [Thread.handoff] at hstep
    | panicked => simp [Thread.handoff] at hstep

/-- Every action keeps the lock discipline. -/
theorem Inv.act {l0 : List ChanRef} {calls : List Call} {c : Config}
    (hinv : Inv l0 calls c) (x : Action) : Inv l0 calls (c.act x) := by
  cases x with
  | run i =>
    simp only [Config.act]
    cases hi : c.threads[i]? with
    | none => exact hinv
    | some t =>
      cases hstep : t.step c.m with
      | none => simp only [hstep]; exact hinv
      | some r =>
        obtain ⟨t1, m1⟩ := r
        simp only [hstep]
        exact hinv.run hi hstep
  | handoff i =>
    simp only [Config.act]
    cases hi : c.threads[i]? with
    | none => exact hinv
    | some t =>
      cases hstep : t.handoff c.m with
      | none => simp only [hstep]; exact hinv
      | some r =>
        obtain ⟨t1, m1⟩ := r
        simp only [hstep]
        exact hinv.handoff hi hstep
  | recv a => exact ⟨hinv.excl, hinv.held, hinv.cons, hinv.perm, hinv.calls⟩
  | close a => exact ⟨hinv.excl, hinv.held, hinv.cons, hinv.perm, hinv.calls⟩

theorem Thread.start_not_critical (x : Call) : (Thread.start x).inCritical = false := by
  cases x <;> rfl

theorem Thread.start_stored (x : Call) : (Thread.start x).stored = none := by
  cases x <;> rfl

theorem Thread.start_call (x : Call) : (Thread.start x).call = x := by
  cases x <;> rfl

theorem Inv.init (l0 : List ChanRef) (chans : Nat → Chan) (calls : List Call) :
    Inv l0 calls (Config.init l0 chans calls) := by
  have hstart : ∀ (i : Nat) (t : Thread),
      (Config.init l0 chans calls).threads[i]? = some t → ∃ x, t = Thread.start x := by
    intro i t h
    simp only [Config.init, List.getElem?_map] at h
    cases hx : calls[i]? with
    | none => rw [hx] at h; cases h
    | some x =>
      rw [hx] at h
      exact ⟨x, (Option.some.inj h).symm⟩
  refine ⟨?_, ?_, ?_, ?_, ?_⟩
  · intro i j ti tj hi _ hic _
    obtain ⟨x, rfl⟩ := hstart i ti hi
    rw [Thread.start_not_critical] at hic
    cases hic
  · constructor
    · intro h
      cases h
    · rintro ⟨i, t, hi, hc⟩
      obtain ⟨x, rfl⟩ := hstart i t hi
      rw [Thread.start_not_critical] at hc
      cases hc
  · intro i t hi
    obtain ⟨x, rfl⟩ := hstart i t hi
    exact Thread.consistent_of_not_critical _ _ (Thread.start_not_critical x)
  · have : (Config.init l0 chans calls).threads.filterMap Thread.stored = [] := by
      simp only [Config.init, List.filterMap_map]
      apply List.filterMap_eq_nil_iff.mpr
      intro x _
      exact Thread.start_stored x
    rw [this, List.append_nil]
    exact List.Perm.refl _
  · simp only [Config.init, List.map_map]
    conv => rhs; rw [← List.map_id calls]
    apply List.map_congr_left
    intro x _
    exact Thread.start_call x

theorem Inv.exec {l0 : List ChanRef} {calls : List Call} (sched : List Action) :
    ∀ c : Config, Inv l0 calls c → Inv l0 calls (c.exec sched) := by
  induction sched with
  | nil => intro c h; exact h
  | cons x sched ih =>
    intro c h
    exact ih (c.act x) (h.act x)

theorem Thread.stored_of_done (t : Thread) (h : t.isDone = true) :
    t.stored = t.call.registrant := by
  cases t with
  | send p srcif pc => cases pc <;> simp_all [Thread.isDone, Thread.stored, Thread.call, Call.registrant]
  | register c pc => cases pc <;> simp_all [Thread.isDone, Thread.stored, Thread.call, Call.registrant]

theorem filterMap_stored_of_done (ts : List Thread) (h : ∀ t ∈ ts, t.isDone = true) :
    ts.filterMap Thread.stored = (ts.map Thread.call).filterMap Call.registrant := by
  induction ts with
  | nil => rfl
  | cons t ts ih =>
    have ht := Thread.stored_of_done t (h t (List.mem_cons_self t ts))
    have hrest := ih (fun u hu => h u (List.mem_cons_of_mem t hu))
    simp only [List.filterMap_cons, List.map_cons, ht, hrest]

theorem Config.runAlone_zero (c : Config) : c.runAlone 0 = c := rfl

theorem Config.runAlone_succ (c : Config) (n : Nat) :
    c.runAlone (n + 1) = (c.act (Action.run 0)).runAlone n := rfl

theorem Config.runAlone_add (c : Config) (n k : Nat) :
    c.runAlone (n + k) = (c.runAlone n).runAlone k := by
  simp only [Config.runAlone, Config.exec, List.replicate_add, List.foldl_append]

theorem Config.act_alone (m m1 : Machine) (t t1 : Thread) (h : t.step m = some (t1, m1)) :
    ({ m := m, threads := [t] } : Config).act (Action.run 0)
      = { m := m1, threads := [t1] } := by
  simp [Config.act, h]

/-- A lone `Send` thread in its loop performs the deliverable sends one by one. -/
theorem loop_runAlone (p : Packet) (srcif : String) (rng rest : List ChanRef) :
    ∀ (ds : List Nat) (j : Nat) (m : Machine),
      rng.drop j = ds.map some ++ rest → Roomy m ds 1 →
      ({ m := m, threads := [Thread.send p srcif (SendPC.loop rng j)] } : Config).runAlone
          ds.length
        = { m := deliver ds { packet := p, srcif := srcif } m,
            threads := [Thread.send p srcif (SendPC.loop rng (j + ds.length))] } := by
  intro ds
  induction ds with
  | nil => intro j m _ _; simp [Config.runAlone_zero, deliver_nil]
  | cons a ds ih =>
    intro j m hdrop h
    have hget : rng[j]? = some (some a) := by
      have := List.getElem?_drop rng j 0
      rw [hdrop] at this
      simpa using this.symm
    have hdrop2 : rng.drop (j + 1) = ds.map some ++ rest := by
      rw [← List.tail_drop, hdrop]
      rfl
    have hstep : (Thread.send p srcif (SendPC.loop rng j)).step m
        = some (Thread.send p srcif (SendPC.loop rng (j + 1)),
            { m with
              chans := setChan m.chans a
                { m.chans a with buf := (m.chans a).buf ++ [{ packet := p, srcif := srcif }] },
              delivered := m.delivered ++ [(a, { packet := p, srcif := srcif })] }) := by
      simp only [Thread.step, hget, Chan.send_ok _ _ h.head.1 h.head.2]
    rw [List.length_cons, Config.runAlone_succ, Config.act_alone _ _ _ _ hstep,
      ih (j + 1) _ hdrop2 (h.tail _), deliver_cons]
    have : j + 1 + ds.length = j + (ds.length + 1) := by omega
    rw [this]

theorem send_runAlone_start (m : Machine) (p : Packet) (srcif : String)
    (hfree : m.s.lock.held = false) :
    (Config.alone m (Call.send p srcif)).runAlone 2
      = { m := acquire m, threads := [Thread.send p srcif (SendPC.loop m.s.senders 0)] } := by
  obtain ⟨⟨⟨held⟩, senders⟩, chans, delivered⟩ := m
  simp only at hfree
  subst hfree
  rfl

theorem send_runAlone_front (m : Machine) (p : Packet) (srcif : String) (ds : List Nat)
    (rest : List ChanRef) (hfree : m.s.lock.held = false)
    (hs : m.s.senders = ds.map some ++ rest) (hroom : Roomy m ds 1) :
    (Config.alone m (Call.send p srcif)).runAlone (2 + ds.length)
      = { m := deliver ds { packet := p, srcif := srcif } (acquire m),
          threads := [Thread.send p srcif (SendPC.loop m.s.senders ds.length)] } := by
  rw [Config.runAlone_add, send_runAlone_start m p srcif hfree,
    loop_runAlone p srcif m.s.senders rest ds 0 (acquire m) (by simpa using hs) hroom,
    Nat.zero_add]

theorem getElem?_after_front (ds : List Nat) (rest : List ChanRef) :
    (ds.map some ++ rest)[ds.length]? = rest[0]? := by
  rw [List.getElem?_append_right (by simp)]
  simp

theorem release_deliver_acquire (m : Machine) (ds : List Nat) (v : Send)
    (hfree : m.s.lock.held = false) :
    ({ deliver ds v (acquire m) with
        s := { (deliver ds v (acquire m)).s with lock := { held := false } } } : Machine)
      = deliver ds v m := by
  obtain ⟨⟨⟨held⟩, senders⟩, chans, delivered⟩ := m
  simp only at hfree
  subst hfree
  rfl

/-- The two embeddings agree: a goroutine that makes one call with nothing else
running comes to rest, after finitely many statements, in exactly the state the
sequential method computes, finished, panicked or parked as that outcome says. -/
theorem lone_thread_agrees (x : Call) (m : Machine) :
    ∃ (n : Nat) (t : Thread),
      (Config.alone m x).runAlone n = { m := (x.exec m).state, threads := [t] }
      ∧ t.step (x.exec m).state = none
      ∧ t.isDone = (x.exec m).isReturned
      ∧ t.isPanicked = (x.exec m).isFault
      ∧ t.call = x := by
  cases x with
  | register c =>
    by_cases hl : m.s.lock.held = true
    · refine ⟨0, Thread.register c RegPC.lock, ?_, ?_, ?_, ?_, rfl⟩ <;>
        simp [Call.exec, RegisterSender_eq_of_held m c hl, Config.runAlone_zero, Config.alone,
          Thread.start, Outcome.state, Thread.step, Mutex.Lock, hl, Thread.isDone,
          Outcome.isReturned, Thread.isPanicked, Outcome.isFault]
    · have hfree : m.s.lock.held = false := by simpa using hl
      refine ⟨4, Thread.register c RegPC.done, ?_, rfl, ?_, ?_, rfl⟩
      · obtain ⟨⟨⟨held⟩, senders⟩, chans, delivered⟩ := m
        simp only at hfree
        subst hfree
        rfl
      · simp [Call.exec, RegisterSender_eq_of_free m c hfree, Thread.isDone, Outcome.isReturned]
      · simp [Call.exec, RegisterSender_eq_of_free m c hfree, Thread.isPanicked,
          Outcome.isFault]
  | send p srcif =>
    by_cases hl : m.s.lock.held = true
    · refine ⟨0, Thread.send p srcif SendPC.lock, ?_, ?_, ?_, ?_, rfl⟩ <;>
        simp [Call.exec, Send_eq_of_held m p srcif hl, Config.runAlone_zero, Config.alone,
          Thread.start, Outcome.state, Thread.step, Mutex.Lock, hl, Thread.isDone,
          Outcome.isReturned, Thread.isPanicked, Outcome.isFault]
    · have hfree : m.s.lock.held = false := by simpa using hl
      obtain ⟨ds, rest, hs, hroom, hstop⟩ := exists_front m m.s.senders
      have hfront := send_runAlone_front m p srcif ds rest hfree hs hroom
      have hsplit := Send_split m p srcif ds rest hfree hs hroom hstop
      simp only [Call.exec, hsplit]
      match rest, hs, hstop with
      | [], hs, _ =>
        refine ⟨2 + ds.length + 2, Thread.send p srcif SendPC.done, ?_, rfl, rfl, rfl, rfl⟩
        rw [Config.runAlone_add, hfront]
        have hget : m.s.senders[ds.length]? = none := by
          rw [hs, getElem?_after_front]; rfl
        have h1 : (Thread.send p srcif (SendPC.loop m.s.senders ds.length)).step
            (deliver ds { packet := p, srcif := srcif } (acquire m))
            = some (Thread.send p srcif SendPC.unlock,
                deliver ds { packet := p, srcif := srcif } (acquire m)) := by
          simp only [Thread.step, hget]
        have h2 : (Thread.send p srcif SendPC.unlock).step
            (deliver ds { packet := p, srcif := srcif } (acquire m))
            = some (Thread.send p srcif SendPC.done,
                deliver ds { packet := p, srcif := srcif } m) := by
          simp only [Thread.step, Mutex.Unlock, deliver_s, acquire, if_true]
          rw [← release_deliver_acquire m ds _ hfree]
          rfl
        rw [Config.runAlone_succ, Config.act_alone _ _ _ _ h1, Config.runAlone_succ,
          Config.act_alone _ _ _ _ h2]
        rfl
      | none :: rest, hs, _ =>
        have hget : m.s.senders[ds.length]? = some none := by
          rw [hs, getElem?_after_front, List.getElem?_cons_zero]
        refine ⟨2 + ds.length, Thread.send p srcif (SendPC.loop m.s.senders ds.length),
          hfront, ?_, rfl, rfl, rfl⟩
        simp only [Thread.step, hget]
      | some a :: rest, hs, hstop =>
        have hget : m.s.senders[ds.length]? = some (some a) := by
          rw [hs, getElem?_after_front, List.getElem?_cons_zero]
        by_cases hc : (m.chans a).closed = true
        · have hc2 : ((deliver ds { packet := p, srcif := srcif } (acquire m)).chans a).closed
              = true := hc
          have hout : sendOutcome m ds { packet := p, srcif := srcif } (some a :: rest)
              = Outcome.panicked ds.length
                  (deliver ds { packet := p, srcif := srcif } (acquire m)) := by
            simp [sendOutcome, stopOutcome, hc2]
          rw [hout]
          refine ⟨2 + ds.length + 1, Thread.send p srcif SendPC.panicked, ?_, rfl, rfl, rfl,
            rfl⟩
          rw [Config.runAlone_add, hfront]
          have h1 : (Thread.send p srcif (SendPC.loop m.s.senders ds.length)).step
              (deliver ds { packet := p, srcif := srcif } (acquire m))
              = some (Thread.send p srcif SendPC.panicked,
                  deliver ds { packet := p, srcif := srcif } (acquire m)) := by
            simp only [Thread.step, hget, Chan.send, hc2, if_true]
          rw [Config.runAlone_succ, Config.act_alone _ _ _ _ h1]
          rfl
        · have hc1 : (m.chans a).closed = false := by simpa using hc
          have hc2 : ((deliver ds { packet := p, srcif := srcif } (acquire m)).chans a).closed
              = false := hc1
          have hfull : (m.chans a).cap ≤ (m.chans a).buf.length + ds.count a := by
            rcases hstop with h | h
            · exact absurd h hc
            · exact h
          have hout : sendOutcome m ds { packet := p, srcif := srcif } (some a :: rest)
              = Outcome.blockedOnSend ds.length
                  (deliver ds { packet := p, srcif := srcif } (acquire m)) := by
            simp [sendOutcome, stopOutcome, hc2]
          rw [hout]
          refine ⟨2 + ds.length, Thread.send p srcif (SendPC.loop m.s.senders ds.length),
            hfront, ?_, rfl, rfl, rfl⟩
          have hblock : ((deliver ds { packet := p, srcif := srcif } (acquire m)).chans a).send
              { packet := p, srcif := srcif } = SendStep.block := by
            apply Chan.send_block _ _ hc2
            rw [deliver_cap, deliver_buf]
            simpa using hfull
          simp only [Outcome.state, Thread.step, hget, hblock]

/-! ## The claims -/

/-- C1 (no packet loss, order preserved). On a feed with a free lock and no
subscriber yet, registering the K distinct open channels `as` and then issuing
the N calls `Send(p_1,s_1) … Send(p_N,s_N)` (the list `vs` of envelopes), each
channel having room for N more values, runs to completion; afterwards the
subscriber list is `as`, and every registered channel holds what it held
before followed by exactly the N envelopes in call order. Channels that were
not registered are untouched. -/
theorem no_loss_order_preserved (m : Machine) (as : List Nat) (vs : List Send)
    (hfree : m.s.lock.held = false) (hempty : m.s.senders = [])
    (hdistinct : as.Nodup)
    (hroom : ∀ a ∈ as, (m.chans a).closed = false ∧
      (m.chans a).buf.length + vs.length ≤ (m.chans a).cap) :
    ∃ m1 : Machine,
      runCalls (as.map (fun a => Call.register (some a)) ++ vs.map Send.call) m
        = Outcome.returned m1
      ∧ m1.s.senders = as.map some
      ∧ (∀ a ∈ as, (m1.chans a).buf = (m.chans a).buf ++ vs)
      ∧ (∀ a, a ∉ as → m1.chans a = m.chans a)
      ∧ m1.delivered = m.delivered ++ vs.flatMap (fun v => as.map (fun a => (a, v))) := by
  have hR : Roomy m ([] ++ as) vs.length := by
    intro a ha
    rw [List.nil_append] at ha ⊢
    have h := hroom a ha
    rw [List.count_eq_one_of_mem hdistinct ha, Nat.mul_one]
    exact h
  have hrun := runCalls_registers_sends m [] as vs hfree (by simpa using hempty) hR
  rw [List.nil_append] at hrun
  refine ⟨_, hrun, ?_, ?_, ?_, ?_⟩
  · rw [deliverAll_s]
    simp [registered, hempty]
  · intro a ha
    rw [deliverAll_buf, List.count_eq_one_of_mem hdistinct ha, flatMap_replicate_one]
    rfl
  · intro a ha
    apply Chan.eq_of_parts
    · rw [deliverAll_buf, List.count_eq_zero_of_not_mem ha, flatMap_replicate_zero]
      simp [registered]
    · rw [deliverAll_cap]; rfl
    · rw [deliverAll_closed]; rfl
  · rw [deliverAll_delivered]
    rfl

/-- C1 witness: A, B, C are the channels at addresses 0, 1, 2 (capacity 2,
empty); after `Send(pkt1,"eth0")` and `Send(pkt2,"eth1")` each holds exactly
the two envelopes in that order. -/
theorem no_loss_order_preserved_witness :
    ∃ m1 : Machine,
      runCalls [Call.register (some 0), Call.register (some 1), Call.register (some 2),
          Call.send 1 "eth0", Call.send 2 "eth1"] (Machine.fresh 2) = Outcome.returned m1
      ∧ ∀ a ∈ [0, 1, 2], (m1.chans a).buf
          = [{ packet := 1, srcif := "eth0" }, { packet := 2, srcif := "eth1" }] := by
  obtain ⟨m1, hrun, _, hbuf, _, _⟩ :=
    no_loss_order_preserved (Machine.fresh 2) [0, 1, 2]
      [{ packet := 1, srcif := "eth0" }, { packet := 2, srcif := "eth1" }]
      rfl rfl (by decide) (by decide)
  exact ⟨m1, hrun, hbuf⟩

/-- C2 (fan-out completeness of one Send). In a state with a free lock whose
subscriber list has the K entries `as`, each an open channel with room for the
values this call puts into it (one per occurrence), `Send(p, srcif)` returns
after exactly K channel sends, one per list entry and in list order, each of
the value `Send{packet: p, srcif: srcif}`; every channel gains one copy per
occurrence in the list and nothing else; list and lock are as before. -/
theorem fanout_complete (m : Machine) (p : Packet) (srcif : String) (as : List Nat)
    (hfree : m.s.lock.held = false) (hs : m.s.senders = as.map some)
    (hroom : ∀ a ∈ as, (m.chans a).closed = false ∧
      (m.chans a).buf.length + as.count a ≤ (m.chans a).cap) :
    ∃ m1 : Machine,
      SendPktFeed.Send m p srcif = Outcome.returned m1
      ∧ m1.delivered
          = m.delivered ++ as.map (fun a => (a, { packet := p, srcif := srcif }))
      ∧ (m1.delivered.drop m.delivered.length).length = m.s.senders.length
      ∧ (∀ a, (m1.chans a).buf
          = (m.chans a).buf ++ List.replicate (as.count a) { packet := p, srcif := srcif })
      ∧ m1.s = m.s := by
  have hR : Roomy m as 1 := by
    intro a ha
    simpa using hroom a ha
  refine ⟨_, Send_deliver m p srcif as hfree hs hR, rfl, ?_, fun a => rfl, rfl⟩
  simp [deliver_delivered, hs]

/-- C2 witness: three subscribers, the channel at address 0 registered twice. -/
theorem fanout_complete_witness :
    ∃ m1 : Machine,
      SendPktFeed.Send
          { s := { lock := { held := false }, senders := [some 0, some 1, some 0] },
            chans := fun _ => mkChan 2, delivered := [] } 7 "eth0"
        = Outcome.returned m1
      ∧ m1.delivered = [(0, { packet := 7, srcif := "eth0" }),
          (1, { packet := 7, srcif := "eth0" }), (0, { packet := 7, srcif := "eth0" })]
      ∧ (m1.chans 0).buf = [{ packet := 7, srcif := "eth0" }, { packet := 7, srcif := "eth0" }]
      ∧ (m1.chans 1).buf = [{ packet := 7, srcif := "eth0" }] := by
  obtain ⟨m1, hrun, hd, _, hbuf, _⟩ :=
    fanout_complete
      { s := { lock := { held := false }, senders := [some 0, some 1, some 0] },
        chans := fun _ => mkChan 2, delivered := [] } 7 "eth0" [0, 1, 0]
      rfl rfl (by decide)
  exact ⟨m1, hrun, hd, hbuf 0, hbuf 1⟩

/-- C3 (late registration isolation). Let the subscriber list be `as` (open
channels with room for every delivery of the run) and let `c` be an open
channel not in the list, with room for the later envelopes. Issue the Sends
`vs1` (#1..#i), then `RegisterSender(c)`, then the Sends `vs2` (#(i+1)..#n):
the whole run returns; when the first i Sends have returned channel `c` is
exactly as before (it got none of their envelopes); at the end `c` holds what
it held before followed by exactly the envelopes of `vs2`, in order. -/
theorem late_registration_isolation (m : Machine) (as : List Nat) (c : Nat)
    (vs1 vs2 : List Send)
    (hfree : m.s.lock.held = false) (hs : m.s.senders = as.map some)
    (hnew : c ∉ as)
    (hroom : ∀ a ∈ as, (m.chans a).closed = false ∧
      (m.chans a).buf.length + (vs1.length + vs2.length) * as.count a ≤ (m.chans a).cap)
    (hc : (m.chans c).closed = false ∧
      (m.chans c).buf.length + vs2.length ≤ (m.chans c).cap) :
    ∃ m1 m2 : Machine,
      runCalls (vs1.map Send.call) m = Outcome.returned m1
      ∧ m1.chans c = m.chans c
      ∧ runCalls (Call.register (some c) :: vs2.map Send.call) m1 = Outcome.returned m2
      ∧ runCalls (vs1.map Send.call ++ Call.register (some c) :: vs2.map Send.call) m
          = Outcome.returned m2
      ∧ (m2.chans c).buf = (m.chans c).buf ++ vs2 := by
  have hR1 : Roomy m as vs1.length := by
    intro a ha
    refine ⟨(hroom a ha).1, ?_⟩
    have h := (hroom a ha).2
    rw [Nat.add_mul] at h
    omega
  have h1 := runCalls_sends as vs1 m hfree hs hR1
  have hcount : as.count c = 0 := List.count_eq_zero_of_not_mem hnew
  have hm1c : (deliverAll as vs1 m).chans c = m.chans c := by
    apply Chan.eq_of_parts
    · rw [deliverAll_buf, hcount, flatMap_replicate_zero, List.append_nil]
    · rw [deliverAll_cap]
    · rw [deliverAll_closed]
  have hR2 : Roomy (deliverAll as vs1 m) (as ++ [c]) vs2.length := by
    intro a ha
    rw [deliverAll_closed, deliverAll_cap, deliverAll_buf, List.length_append,
      flatMap_replicate_length, List.count_append]
    by_cases hac : a = c
    · subst hac
      simp [hcount]
      exact hc
    · have haas : a ∈ as := by
        rcases List.mem_append.mp ha with h | h
        · exact h
        · exact absurd (List.mem_singleton.mp h) hac
      have hca : ¬ c = a := fun h => hac h.symm
      have h := hroom a haas
      refine ⟨h.1, ?_⟩
      have h2 := h.2
      simp only [List.count_cons, List.count_nil, beq_iff_eq, hca, if_false, Nat.add_zero]
      rw [Nat.add_mul] at h2
      omega
  have h2 := runCalls_registers_sends (deliverAll as vs1 m) as [c] vs2
    (by rw [deliverAll_s]; exact hfree) (by rw [deliverAll_s]; exact hs) hR2
  simp only [List.map_cons, List.map_nil, List.singleton_append] at h2
  refine ⟨_, _, h1, hm1c, h2, ?_, ?_⟩
  · rw [runCalls_append_returned _ _ _ _ h1, h2]
  · rw [deliverAll_buf]
    have : (as ++ [c]).count c = 1 := by simp [List.count_append, hcount]
    rw [this, flatMap_replicate_one]
    show ((deliverAll as vs1 m).chans c).buf ++ vs2 = _
    rw [hm1c]

/-- C3 witness: one early subscriber, two Sends, then channel 1 registers and
one more Send follows; channel 1 holds only the third envelope. -/
theorem late_registration_isolation_witness :
    ∃ m1 m2 : Machine,
      runCalls [Call.send 1 "eth0", Call.send 2 "eth1"]
          { s := { lock := { held := false }, senders := [some 0] },
            chans := fun _ => mkChan 3, delivered := [] } = Outcome.returned m1
      ∧ (m1.chans 1).buf = []
      ∧ runCalls [Call.register (some 1), Call.send 3 "eth2"] m1 = Outcome.returned m2
      ∧ (m2.chans 1).buf = [{ packet := 3, srcif := "eth2" }] := by
  obtain ⟨m1, m2, h1, hc, h2, _, hbuf⟩ :=
    late_registration_isolation
      { s := { lock := { held := false }, senders := [some 0] },
        chans := fun _ => mkChan 3, delivered := [] } [0] 1
      [{ packet := 1, srcif := "eth0" }, { packet := 2, srcif := "eth1" }]
      [{ packet := 3, srcif := "eth2" }] rfl rfl (by decide) (by decide) (by decide)
  exact ⟨m1, m2, h1, by rw [hc]; rfl, h2, hbuf⟩

/-- C5 (RegisterSender appends, no deduplication). On a free lock
`RegisterSender(e)` returns with the subscriber list `L ++ [e]`, one entry
longer, whether or not `e` was already in `L`, and touches nothing else.
Consequently, registering an open channel `c` (not yet listed, with room) twice
and then issuing any Sends `vs` puts two copies of each envelope, in call
order, into the buffer of `c`. -/
theorem register_appends_no_dedup (m : Machine) (e : ChanRef)
    (hfree : m.s.lock.held = false) :
    (∃ m1 : Machine,
      SendPktFeed.RegisterSender m e = Outcome.returned m1
      ∧ m1.s.senders = m.s.senders ++ [e]
      ∧ m1.s.senders.length = m.s.senders.length + 1
      ∧ m1.s.lock = m.s.lock ∧ m1.chans = m.chans ∧ m1.delivered = m.delivered)
    ∧ (∀ (as : List Nat) (c : Nat) (vs : List Send),
        m.s.senders = as.map some → e = some c → c ∉ as →
        (∀ a ∈ as, (m.chans a).closed = false ∧
          (m.chans a).buf.length + vs.length * as.count a ≤ (m.chans a).cap) →
        (m.chans c).closed = false →
        (m.chans c).buf.length + vs.length * 2 ≤ (m.chans c).cap →
        ∃ m2 : Machine,
          runCalls (Call.register e :: Call.register e :: vs.map Send.call) m
            = Outcome.returned m2
          ∧ m2.s.senders = m.s.senders ++ [e, e]
          ∧ (m2.chans c).buf = (m.chans c).buf ++ vs.flatMap (fun v => [v, v])) := by
  constructor
  · refine ⟨_, RegisterSender_eq_of_free m e hfree, rfl, ?_, rfl, rfl, rfl⟩
    simp
  · intro as c vs hs he hnew hroom hopen hcap
    subst he
    have hcount : as.count c = 0 := List.count_eq_zero_of_not_mem hnew
    have hR : Roomy m (as ++ [c, c]) vs.length := by
      intro a ha
      rw [List.count_append]
      by_cases hac : a = c
      · subst hac
        simp [hcount]
        exact ⟨hopen, hcap⟩
      · have haas : a ∈ as := by
          rcases List.mem_append.mp ha with h | h
          · exact h
          · simp at h
            exact absurd h hac
        have hca : ¬ c = a := fun h => hac h.symm
        have h := hroom a haas
        refine ⟨h.1, ?_⟩
        simp only [List.count_cons, List.count_nil, beq_iff_eq, hca, if_false, Nat.add_zero]
        exact h.2
    have h2 := runCalls_registers_sends m as [c, c] vs hfree hs hR
    simp only [List.map_cons, List.map_nil, List.cons_append, List.nil_append] at h2
    refine ⟨_, h2, ?_, ?_⟩
    · rw [deliverAll_s]
      rfl
    · rw [deliverAll_buf]
      have : (as ++ [c, c]).count c = 2 := by simp [List.count_append, hcount]
      rw [this]
      rfl

/-- C5 witness: channel 0 registered twice on a fresh feed, then one Send. -/
theorem register_appends_no_dedup_witness :
    ∃ m2 : Machine,
      runCalls [Call.register (some 0), Call.register (some 0), Call.send 5 "eth0"]
          (Machine.fresh 2) = Outcome.returned m2
      ∧ m2.s.senders = [some 0, some 0]
      ∧ (m2.chans 0).buf
          = [{ packet := 5, srcif := "eth0" }, { packet := 5, srcif := "eth0" }] := by
  obtain ⟨m2, h1, h2, h3⟩ :=
    (register_appends_no_dedup (Machine.fresh 2) (some 0) rfl).2 [] 0
      [{ packet := 5, srcif := "eth0" }] rfl rfl (by decide) (by decide) rfl (by decide)
  exact ⟨m2, h1, h2, h3⟩

/-- C6 (the subscriber list only grows, and only via RegisterSender). For every
state and every call, whatever its outcome: `Send` leaves the subscriber list
exactly as it was; `RegisterSender` leaves it as it was or appends its one
argument, and changes no channel; and after any sequence of calls the old list
is a front of the new list, no channel has been closed or resized, and every
channel still holds its old contents as a front of its buffer. -/
theorem list_only_grows (m : Machine) :
    (∀ (p : Packet) (srcif : String),
      (SendPktFeed.Send m p srcif).state.s.senders = m.s.senders)
    ∧ (∀ e : ChanRef,
        ((SendPktFeed.RegisterSender m e).state.s.senders = m.s.senders
          ∨ (SendPktFeed.RegisterSender m e).state.s.senders = m.s.senders ++ [e])
        ∧ m.s.senders <+: (SendPktFeed.RegisterSender m e).state.s.senders
        ∧ (SendPktFeed.RegisterSender m e).state.chans = m.chans)
    ∧ (∀ cs : List Call,
        m.s.senders <+: (runCalls cs m).state.s.senders
        ∧ ∀ a, ((runCalls cs m).state.chans a).closed = (m.chans a).closed
          ∧ ((runCalls cs m).state.chans a).cap = (m.chans a).cap
          ∧ (m.chans a).buf <+: ((runCalls cs m).state.chans a).buf) := by
  refine ⟨?_, ?_, ?_⟩
  · intro p srcif
    obtain ⟨ds, _, h⟩ := Send_state m p srcif
    rcases h with h | h <;> rw [h] <;> rfl
  · intro e
    rcases RegisterSender_state m e with h | h <;> rw [h]
    · exact ⟨Or.inl rfl, List.prefix_refl _, rfl⟩
    · exact ⟨Or.inr rfl, List.prefix_append _ _, rfl⟩
  · intro cs
    exact runCalls_grows cs m

/-- C7 fails as stated: after `RegisterSender` of a channel that its owner has
closed, `Send` ends in `panic: send on closed channel` at loop iteration 0. -/
theorem send_faults_on_closed_channel :
    (runCalls [Call.register (some 0), Call.send 1 "eth0"] closedHeap).isFault = true
    ∧ (runCalls [Call.register (some 0), Call.send 1 "eth0"] closedHeap).index = some 0 := by
  decide

/-- C7 (amended). `RegisterSender` never ends in a panic or fatal error, in any
state and for any handle, and returns whenever the mutex is free. `Send` has no
failure outcome in any state where no channel of the subscriber list is closed
(it returns or parks); in particular the `Unlock` of both methods never hits an
unlocked mutex. -/
theorem no_fault_without_closed_channel (m : Machine) (e : ChanRef) (p : Packet)
    (srcif : String) :
    (SendPktFeed.RegisterSender m e).isFault = false
    ∧ (m.s.lock.held = false → (SendPktFeed.RegisterSender m e).isReturned = true)
    ∧ ((∀ a, some a ∈ m.s.senders → (m.chans a).closed = false) →
        (SendPktFeed.Send m p srcif).isFault = false) := by
  refine ⟨?_, ?_, ?_⟩
  · by_cases hl : m.s.lock.held = true
    · rw [RegisterSender_eq_of_held m e hl]; rfl
    · rw [RegisterSender_eq_of_free m e (by simpa using hl)]; rfl
  · intro hl
    rw [RegisterSender_eq_of_free m e hl]; rfl
  · intro hopen
    obtain ⟨ds, rest, hs, _, _, h⟩ := Send_shape m
    rw [h p srcif]
    by_cases hl : m.s.lock.held = true
    · rw [if_pos hl]; rfl
    · rw [if_neg hl]
      match rest, hs with
      | [], _ => rfl
      | none :: _, _ => rfl
      | some a :: rest, hs =>
        have ha : (m.chans a).closed = false := hopen a (by rw [hs]; simp)
        have ha2 : ((deliver ds { packet := p, srcif := srcif } (acquire m)).chans a).closed
            = false := ha
        simp [sendOutcome, stopOutcome, ha2, Outcome.isFault]

/-- C7 witness: a fresh feed with two open subscribers. -/
theorem no_fault_without_closed_channel_witness :
    (SendPktFeed.Send (registered [some 0, some 1] (Machine.fresh 1)) 1 "eth0").isFault
      = false :=
  (no_fault_without_closed_channel (registered [some 0, some 1] (Machine.fresh 1))
    none 1 "eth0").2.2 (by intro a _; rfl)

/-- C4 (origin is data, not filtering). For every state, packet `p` and source
interface strings `s1`, `s2`: `Send(p, s1)` and `Send(p, s2)` end the same way
and perform their channel sends on the same list `ds` of endpoints, a front of
the subscriber list that is the whole list whenever the call returns; the two
runs differ only in the `srcif` field of the envelopes they deliver. -/
theorem origin_is_data (m : Machine) (p : Packet) (s1 s2 : String) :
    ∃ ds : List Nat,
      ds.map some <+: m.s.senders
      ∧ (SendPktFeed.Send m p s1).shape = (SendPktFeed.Send m p s2).shape
      ∧ ((SendPktFeed.Send m p s1).isReturned = true → ds.map some = m.s.senders)
      ∧ (SendPktFeed.Send m p s1).state.delivered
          = m.delivered ++ ds.map (fun a => (a, { packet := p, srcif := s1 }))
      ∧ (SendPktFeed.Send m p s2).state.delivered
          = m.delivered ++ ds.map (fun a => (a, { packet := p, srcif := s2 }))
      ∧ (∀ a, ((SendPktFeed.Send m p s1).state.chans a).buf
          = (m.chans a).buf ++ List.replicate (ds.count a) { packet := p, srcif := s1 })
      ∧ (∀ a, ((SendPktFeed.Send m p s2).state.chans a).buf
          = (m.chans a).buf ++ List.replicate (ds.count a) { packet := p, srcif := s2 }) := by
  obtain ⟨ds, rest, hs, _, _, h⟩ := Send_shape m
  by_cases hl : m.s.lock.held = true
  · have hst : ∀ s, (SendPktFeed.Send m p s).state = m := by
      intro s
      rw [h p s, if_pos hl]
      rfl
    refine ⟨[], by simp, ?_, ?_, ?_, ?_, ?_, ?_⟩
    · rw [h p s1, h p s2, if_pos hl, if_pos hl]
    · rw [h p s1, if_pos hl]
      intro hr
      simp [Outcome.isReturned] at hr
    · rw [hst]; simp
    · rw [hst]; simp
    · intro a; rw [hst]; simp
    · intro a; rw [hst]; simp
  · have hout : ∀ s, SendPktFeed.Send m p s
        = sendOutcome m ds { packet := p, srcif := s } rest := by
      intro s
      rw [h p s, if_neg hl]
    refine ⟨ds, by rw [hs]; exact List.prefix_append _ _, ?_, ?_, ?_, ?_, ?_, ?_⟩
    · rw [hout, hout]
      exact sendOutcome_shape _ _ _ _ _
    · rw [hout]
      intro hr
      rw [hs, sendOutcome_returned _ _ _ _ hr, List.append_nil]
    · rw [hout]; exact sendOutcome_delivered _ _ _ _
    · rw [hout]; exact sendOutcome_delivered _ _ _ _
    · intro a; rw [hout]; exact sendOutcome_buf _ _ _ _ a
    · intro a; rw [hout]; exact sendOutcome_buf _ _ _ _ a

/-- C4 witness: the consumer for "eth0" owns the channel at address 0; a packet
that came in on "eth0" is delivered to it all the same, tagged "eth0". -/
theorem origin_is_data_witness :
    ((SendPktFeed.Send
        { s := { lock := { held := false }, senders := [some 0] },
          chans := fun _ => mkChan 1, delivered := [] } 1 "eth0").state.chans 0).buf
      = [{ packet := 1, srcif := "eth0" }] := by
  obtain ⟨ds, _, _, hret, _, _, hbuf, _⟩ :=
    origin_is_data
      { s := { lock := { held := false }, senders := [some 0] },
        chans := fun _ => mkChan 1, delivered := [] } 1 "eth0" "eth1"
  have hds : ds.map some = [some 0] := hret (by decide)
  have hd : ds = [0] := by
    match ds, hds with
    | [d], h =>
      simp only [List.map_cons, List.map_nil, List.cons.injEq, Option.some.injEq,
        and_true] at h
      rw [h]
  rw [hbuf 0, hd]
  rfl

/-- C9 (head-of-line blocking). Let the subscriber list be `ds ++ [a] ++ rest`
with a free lock, where every entry of the front `ds` is an open channel that
is not full when its turn comes and the entry `a` at index `j = ds.length` is an
open channel that is full when its turn comes (for an endpoint occurring once:
full, respectively not full, in the state before the call). Then `Send(p, s)`
is parked in the channel send of iteration `j` with the mutex held, having
performed exactly the sends to the entries at indices below `j`, in order, and
none to an entry at index `j` or above. And in every state, a call that stopped
in iteration `k` has completed the sends to exactly the entries before `k`: it
reaches an entry only after the send to the previous one succeeded. -/
theorem head_of_line_blocking (m : Machine) (p : Packet) (srcif : String)
    (ds : List Nat) (a : Nat) (rest : List ChanRef)
    (hfree : m.s.lock.held = false)
    (hs : m.s.senders = ds.map some ++ some a :: rest)
    (hfront : ∀ b ∈ ds, (m.chans b).closed = false ∧
      (m.chans b).buf.length + ds.count b ≤ (m.chans b).cap)
    (hopen : (m.chans a).closed = false)
    (hfull : (m.chans a).cap ≤ (m.chans a).buf.length + ds.count a) :
    (∃ m1 : Machine,
      SendPktFeed.Send m p srcif = Outcome.blockedOnSend ds.length m1
      ∧ m1.s.lock.held = true
      ∧ m1.s.senders = m.s.senders
      ∧ m1.delivered = m.delivered ++ ds.map (fun b => (b, { packet := p, srcif := srcif }))
      ∧ ∀ b, (m1.chans b).buf
          = (m.chans b).buf ++ List.replicate (ds.count b) { packet := p, srcif := srcif })
    ∧ (∀ (m2 : Machine) (k : Nat), (SendPktFeed.Send m2 p srcif).index = some k →
        ∃ ds2 : List Nat, ds2.length = k ∧ ds2.map some = m2.s.senders.take k
          ∧ (SendPktFeed.Send m2 p srcif).state.delivered
            = m2.delivered ++ ds2.map (fun b => (b, { packet := p, srcif := srcif }))) := by
  constructor
  · have hR : Roomy m ds 1 := by
      intro b hb
      simpa using hfront b hb
    have hsplit := Send_split m p srcif ds (some a :: rest) hfree hs hR (Or.inr hfull)
    have ha2 : ((deliver ds { packet := p, srcif := srcif } (acquire m)).chans a).closed
        = false := hopen
    refine ⟨deliver ds { packet := p, srcif := srcif } (acquire m), ?_, rfl, rfl, rfl,
      fun b => rfl⟩
    rw [hsplit]
    simp [sendOutcome, stopOutcome, ha2]
  · intro m2 k hk
    obtain ⟨ds2, rest2, hs2, _, _, h⟩ := Send_shape m2
    rw [h p srcif] at hk ⊢
    by_cases hl : m2.s.lock.held = true
    · rw [if_pos hl] at hk
      simp [Outcome.index] at hk
    · rw [if_neg hl] at hk ⊢
      have hlen := sendOutcome_index _ _ _ _ _ hk
      refine ⟨ds2, hlen.symm, ?_, sendOutcome_delivered _ _ _ _⟩
      rw [hs2, hlen]
      have : ds2.length = (ds2.map some).length := by simp
      rw [this, List.take_left]

/-- C9 witness: channel 0 has room, channel 1 (capacity 1) still holds an
undrained envelope, channel 2 is behind it. -/
theorem head_of_line_blocking_witness :
    ∃ m1 : Machine,
      SendPktFeed.Send
          { s := { lock := { held := false }, senders := [some 0, some 1, some 2] },
            chans := fun a =>
              if a = 1 then { buf := [{ packet := 8, srcif := "eth1" }], cap := 1,
                              closed := false }
              else mkChan 1,
            delivered := [] } 9 "eth0"
        = Outcome.blockedOnSend 1 m1
      ∧ m1.s.lock.held = true
      ∧ m1.delivered = [(0, { packet := 9, srcif := "eth0" })]
      ∧ (m1.chans 2).buf = [] := by
  obtain ⟨m1, h1, h2, _, h4, h5⟩ :=
    (head_of_line_blocking
      { s := { lock := { held := false }, senders := [some 0, some 1, some 2] },
        chans := fun a =>
          if a = 1 then { buf := [{ packet := 8, srcif := "eth1" }], cap := 1,
                          closed := false }
          else mkChan 1,
        delivered := [] } 9 "eth0" [0] 1 [some 2] rfl rfl (by decide) rfl (by decide)).1
  exact ⟨m1, h1, h2, h4, h5 2⟩

/-- C10 (lock balance, non-atomic failure of Send). Whenever `Send` or
`RegisterSender` returns, the mutex is free again. But if the subscriber list
is `ds ++ [a] ++ rest` with a free lock, the front `ds` deliverable and the
channel `a` at index `j = ds.length` closed, then `Send(p, s)` panics in
iteration `j`: the envelopes already sent to the entries below `j` stay in
their channels, no entry at `j` or above is served, and the mutex stays locked,
so from that state every `Send` and every `RegisterSender` parks in `Lock()`. -/
theorem lock_balance_and_panic (m : Machine) (p : Packet) (srcif : String)
    (ds : List Nat) (a : Nat) (rest : List ChanRef)
    (hfree : m.s.lock.held = false)
    (hs : m.s.senders = ds.map some ++ some a :: rest)
    (hfront : ∀ b ∈ ds, (m.chans b).closed = false ∧
      (m.chans b).buf.length + ds.count b ≤ (m.chans b).cap)
    (hclosed : (m.chans a).closed = true) :
    (∀ (m2 m3 : Machine) (p2 : Packet) (s2 : String),
      SendPktFeed.Send m2 p2 s2 = Outcome.returned m3 → m3.s.lock.held = false)
    ∧ (∀ (m2 m3 : Machine) (e : ChanRef),
      SendPktFeed.RegisterSender m2 e = Outcome.returned m3 → m3.s.lock.held = false)
    ∧ (∃ m1 : Machine,
      SendPktFeed.Send m p srcif = Outcome.panicked ds.length m1
      ∧ m1.s.lock.held = true
      ∧ m1.s.senders = m.s.senders
      ∧ m1.delivered = m.delivered ++ ds.map (fun b => (b, { packet := p, srcif := srcif }))
      ∧ (∀ b, (m1.chans b).buf
          = (m.chans b).buf ++ List.replicate (ds.count b) { packet := p, srcif := srcif })
      ∧ (∀ (p2 : Packet) (s2 : String),
          SendPktFeed.Send m1 p2 s2 = Outcome.blockedOnLock m1)
      ∧ (∀ e : ChanRef, SendPktFeed.RegisterSender m1 e = Outcome.blockedOnLock m1)) := by
  refine ⟨?_, ?_, ?_⟩
  · intro m2 m3 p2 s2 hret
    obtain ⟨ds2, rest2, hs2, _, _, h⟩ := Send_shape m2
    rw [h p2 s2] at hret
    by_cases hl : m2.s.lock.held = true
    · rw [if_pos hl] at hret
      cases hret
    · rw [if_neg hl] at hret
      have hr : (sendOutcome m2 ds2 { packet := p2, srcif := s2 } rest2).isReturned = true := by
        rw [hret]; rfl
      have hrest := sendOutcome_returned _ _ _ _ hr
      subst hrest
      simp only [sendOutcome, Outcome.returned.injEq] at hret
      rw [← hret]
      simpa using hl
  · intro m2 m3 e hret
    by_cases hl : m2.s.lock.held = true
    · rw [RegisterSender_eq_of_held m2 e hl] at hret
      cases hret
    · rw [RegisterSender_eq_of_free m2 e (by simpa using hl)] at hret
      simp only [Outcome.returned.injEq] at hret
      rw [← hret]
      simpa using hl
  · have hR : Roomy m ds 1 := by
      intro b hb
      simpa using hfront b hb
    have hsplit := Send_split m p srcif ds (some a :: rest) hfree hs hR (Or.inl hclosed)
    have ha2 : ((deliver ds { packet := p, srcif := srcif } (acquire m)).chans a).closed
        = true := hclosed
    refine ⟨deliver ds { packet := p, srcif := srcif } (acquire m), ?_, rfl, rfl, rfl,
      fun b => rfl, ?_, ?_⟩
    · rw [hsplit]
      simp [sendOutcome, stopOutcome, ha2]
    · intro p2 s2
      exact Send_eq_of_held _ p2 s2 rfl
    · intro e
      exact RegisterSender_eq_of_held _ e rfl

/-- C10 witness: channel 0 is open with room, channel 1 has been closed. -/
theorem lock_balance_and_panic_witness :
    ∃ m1 : Machine,
      SendPktFeed.Send
          { s := { lock := { held := false }, senders := [some 0, some 1, some 2] },
            chans := fun a => if a = 1 then { buf := [], cap := 1, closed := true }
              else mkChan 1,
            delivered := [] } 9 "eth0"
        = Outcome.panicked 1 m1
      ∧ m1.s.lock.held = true
      ∧ (m1.chans 0).buf = [{ packet := 9, srcif := "eth0" }]
      ∧ (m1.chans 2).buf = []
      ∧ SendPktFeed.Send m1 10 "eth1" = Outcome.blockedOnLock m1
      ∧ SendPktFeed.RegisterSender m1 (some 3) = Outcome.blockedOnLock m1 := by
  obtain ⟨m1, h1, h2, _, _, h5, h6, h7⟩ :=
    (lock_balance_and_panic
      { s := { lock := { held := false }, senders := [some 0, some 1, some 2] },
        chans := fun a => if a = 1 then { buf := [], cap := 1, closed := true }
          else mkChan 1,
        delivered := [] } 9 "eth0" [0] 1 [some 2] rfl rfl (by decide) rfl).2.2
  exact ⟨m1, h1, h2, h5 0, h5 2, h6 10 "eth1", h7 (some 3)⟩

/-- C8 (lock discipline). Start from a free mutex, any subscriber list `l0`, any
channels, and any number of goroutines each about to call `Send` or
`RegisterSender`; let them and the channel owners run under an arbitrary
schedule. In every configuration reached: at most one thread is between its
`Lock()` and `Unlock()`, and whenever a thread is there (so whenever the list is
being traversed or appended to) the mutex is held; a `Send` in its loop is
iterating over exactly the current list (nothing was added mid-traversal); a
pending append is the current list plus the new entry (no update is lost);
no `RegisterSender` fails; the list is the initial one plus, in some order,
exactly one entry per registration that has stored; and once all calls have
returned it is the initial list plus exactly one entry per `RegisterSender`. -/
theorem lock_discipline (l0 : List ChanRef) (chans : Nat → Chan) (calls : List Call)
    (sched : List Action) :
    (∀ (i j : Nat) (ti tj : Thread),
      ((Config.init l0 chans calls).exec sched).threads[i]? = some ti →
      ((Config.init l0 chans calls).exec sched).threads[j]? = some tj →
      ti.inCritical = true → tj.inCritical = true → i = j)
    ∧ (∀ (i : Nat) (t : Thread),
      ((Config.init l0 chans calls).exec sched).threads[i]? = some t →
      t.inCritical = true → ((Config.init l0 chans calls).exec sched).m.s.lock.held = true)
    ∧ (∀ (i : Nat) (p : Packet) (srcif : String) (rng : List ChanRef) (j : Nat),
      ((Config.init l0 chans calls).exec sched).threads[i]?
        = some (Thread.send p srcif (SendPC.loop rng j)) →
      rng = ((Config.init l0 chans calls).exec sched).m.s.senders)
    ∧ (∀ (i : Nat) (e : ChanRef) (tmp : List ChanRef),
      ((Config.init l0 chans calls).exec sched).threads[i]?
        = some (Thread.register e (RegPC.assign tmp)) →
      tmp = ((Config.init l0 chans calls).exec sched).m.s.senders ++ [e])
    ∧ (∀ (i : Nat) (e : ChanRef),
      ((Config.init l0 chans calls).exec sched).threads[i]?
        ≠ some (Thread.register e RegPC.panicked))
    ∧ List.Perm ((Config.init l0 chans calls).exec sched).m.s.senders
        (l0 ++ ((Config.init l0 chans calls).exec sched).threads.filterMap Thread.stored)
    ∧ ((∀ t ∈ ((Config.init l0 chans calls).exec sched).threads, t.isDone = true) →
        List.Perm ((Config.init l0 chans calls).exec sched).m.s.senders
          (l0 ++ calls.filterMap Call.registrant)) := by
  have hinv : Inv l0 calls ((Config.init l0 chans calls).exec sched) :=
    Inv.exec sched _ (Inv.init l0 chans calls)
  refine ⟨hinv.excl, ?_, ?_, ?_, ?_, hinv.perm, ?_⟩
  · intro i t hi hc
    exact hinv.held_of_critical hi hc
  · intro i p srcif rng j hi
    exact (hinv.cons i _ hi).1
  · intro i e tmp hi
    exact hinv.cons i _ hi
  · intro i e hi
    exact hinv.cons i _ hi
  · intro hdone
    have h := hinv.perm
    rw [filterMap_stored_of_done _ hdone, hinv.calls] at h
    exact h

/-- C8 witness: two registrations and one Send interleaved; the Send takes the
lock first, both registrations wait, and the list ends with both entries. -/
theorem lock_discipline_witness :
    List.Perm
      ((Config.init [] (fun _ => mkChan 2)
          [Call.register (some 0), Call.send 1 "eth0", Call.register (some 1)]).exec
        [Action.run 1, Action.run 0, Action.run 2, Action.run 1, Action.run 1,
          Action.run 2, Action.run 1, Action.run 2, Action.run 0, Action.run 2,
          Action.run 2, Action.run 2, Action.run 0, Action.run 0, Action.run 0,
          Action.run 0]).m.s.senders
      [some 0, some 1] :=
  (lock_discipline [] (fun _ => mkChan 2)
    [Call.register (some 0), Call.send 1 "eth0", Call.register (some 1)]
    [Action.run 1, Action.run 0, Action.run 2, Action.run 1, Action.run 1,
      Action.run 2, Action.run 1, Action.run 2, Action.run 0, Action.run 2,
      Action.run 2, Action.run 2, Action.run 0, Action.run 0, Action.run 0,
      Action.run 0]).2.2.2.2.2.2 (by decide)

end UdpProxy
